import Mathlib

/-!
# npshell: parser, pipeline grouper and delayed-pipe registry

A shallow embedding of `src/npshell.cpp`.

* `std::string` is a list of characters (`Str`), `std::vector` a list.
* The `int` fields `pipeNumber` and `countDown` are `Int`, and
  `globalCreationID` is a `Nat` counting up from 0. Signed overflow is
  undefined in C++ and would need 2^31 inserts or aging steps; runs that long
  are outside the model.
* A file descriptor is modelled by what its reader gets. For the descriptor
  of `getInputFD`, `none` is `-1` and `some bytes` a descriptor that yields
  `bytes` and then end of file. Between the stages of a group (`Fd`) a
  descriptor can also be one that never reaches end of file, because the
  shell itself still holds the write end.
* A call that never returns (a `read` that never sees end of file, a
  `waitpid` on a child that never exits) is the result `none`, and
  `Halt.blocked` in the line loop.
* Child processes are external. What a child writes, and whether it exits
  when its input never ends, is given by a `World` parameter; a child whose
  input ends is taken to exit. The environment, the content of redirect
  files, the capacity of pipes, the limit of 200 children and failures of
  `fork` and `pipe` are not modelled.
* An exception thrown by `std::stoi` is caught nowhere in the program, so
  `parseLine` returns `Except StoiError _`: `Except.error e` stands for the
  exception leaving `parseLine` (and `main`).
-/

namespace NPShell

/-- A `std::string`. -/
abbrev Str := List Char

/-! ## Data model (npshell.cpp:15-33) -/

/-- `struct MemoryPipeData`. -/
structure MemoryPipeData where
  creationID : Nat
  countDown : Int
  pipeStderr : Bool
  data : Str
deriving DecidableEq, Repr

/-- `struct CommandUnit`, with the member initialisers of the source. -/
structure CommandUnit where
  args : List Str := []
  pipeToNext : Bool := false
  pipeToNextStderr : Bool := false
  pipeNumber : Int := 0
  redirect : Bool := false
  redirectFile : Str := []
  newGroup : Bool := false
deriving DecidableEq, Repr

/-- The two globals the registry lives in: `MemoryPipeManager::memoryPipeTable`
and `globalCreationID`. -/
structure Shell where
  memoryPipeTable : List MemoryPipeData := []
  globalCreationID : Nat := 0
deriving DecidableEq, Repr

/-! ## Trailing-newline normalisation (npshell.cpp:44-46, 168-170, 367) -/

/-- The statement `if (!s.empty() && s.back() != '\n') s.push_back('\n');`. -/
def normalizeNewline (s : Str) : Str :=
  if s ≠ [] ∧ s.getLast? ≠ some '\n' then s ++ ['\n'] else s

/-- `flushFdToStdout`: the bytes written to the shell's standard output. -/
def flushFdToStdout (fd : Option Str) : Str :=
  match fd with
  | none => []
  | some flushed => normalizeNewline flushed

/-! ## Tokenizer (npshell.cpp:51-58) -/

/-- `std::isspace` in the "C" locale, which `operator>>` skips. -/
def isSpace (c : Char) : Bool :=
  c == ' ' || c == '\t' || c == '\n' || c == '\x0b' || c == '\x0c' || c == '\r'

/-- The `while (iss >> token)` loop: `cur` is the token being read, `acc` the
tokens pushed so far. -/
def tokenizeAux : List Char → Str → List Str → List Str
  | [], cur, acc => if cur = [] then acc else acc ++ [cur]
  | c :: cs, cur, acc =>
    if isSpace c then
      if cur = [] then tokenizeAux cs [] acc else tokenizeAux cs [] (acc ++ [cur])
    else tokenizeAux cs (cur ++ [c]) acc

/-- `tokenize`. -/
def tokenize (input : Str) : List Str := tokenizeAux input [] []

/-! ## `std::stoi` -/

/-- The two exceptions `std::stoi` throws. -/
inductive StoiError where
  | invalid_argument
  | out_of_range
deriving DecidableEq, Repr

/-- Value of a run of decimal digits. -/
def digitsValue (ds : Str) : Nat :=
  ds.foldl (fun acc c => 10 * acc + (c.toNat - 48)) 0

/-- The optional sign `strtol` accepts: whether it is `-`, and what follows it. -/
def stoiSign (s : Str) : Bool × Str :=
  match s with
  | '-' :: r => (true, r)
  | '+' :: r => (false, r)
  | _ => (false, s)

/-- `std::stoi(s)` (base 10, via `strtol`): skip leading white space, read
an optional sign and the longest run of decimal digits, ignore what follows;
no digit gives `invalid_argument`, a value outside `int` gives
`out_of_range`. -/
def stoi (s : Str) : Except StoiError Int :=
  let signed := stoiSign (s.dropWhile isSpace)
  let ds := signed.2.takeWhile Char.isDigit
  if ds = [] then Except.error StoiError.invalid_argument
  else
    let v : Int := if signed.1 then - (digitsValue ds : Int) else (digitsValue ds : Int)
    if v < -2147483648 ∨ 2147483647 < v then Except.error StoiError.out_of_range
    else Except.ok v

/-! ## Parser (npshell.cpp:60-141) -/

/-- The locals of `parseLine` that the loop and its lambdas mutate. -/
structure ParseState where
  result : List CommandUnit := []
  currentCmd : CommandUnit := {}
  inNewGroup : Bool := true
deriving DecidableEq, Repr

/-- Apply `f` to `v.back()` when `v` is not empty. -/
def modifyBack {α : Type} (f : α → α) : List α → List α
  | [] => []
  | [x] => [f x]
  | x :: y :: rest => x :: modifyBack f (y :: rest)

/-- The lambda `flushCurrentCmd`. -/
def flushCurrentCmd (pushNewGroup : Bool) (st : ParseState) : ParseState :=
  let st1 : ParseState :=
    if st.currentCmd.args ≠ [] ∨ st.currentCmd.redirect = true then
      let st2 : ParseState :=
        if st.inNewGroup = true then
          { st with currentCmd := { st.currentCmd with newGroup := true }, inNewGroup := false }
        else st
      let cmd : CommandUnit := { st2.currentCmd with pipeNumber := 0, pipeToNextStderr := false }
      { st2 with currentCmd := cmd, result := st2.result ++ [cmd] }
    else st
  { st1 with currentCmd := {}, inNewGroup := if pushNewGroup then true else st1.inNewGroup }

/-- The lambda `setNumberedPipeForPrevCmd`. -/
def setNumberedPipeForPrevCmd (n : Int) (toStderr : Bool) (st : ParseState) : ParseState :=
  let mark : CommandUnit → CommandUnit :=
    fun c => { c with pipeNumber := n, pipeToNextStderr := toStderr, pipeToNext := true }
  { st with result := modifyBack mark st.result }

/-- The lambda `setPipeForPrevCmd`. -/
def setPipeForPrevCmd (st : ParseState) : ParseState :=
  { st with result := modifyBack (fun c => { c with pipeToNext := true }) st.result }

/-- The first test of the loop body:
`tk.size() >= 2 && (tk[0] == '|' || tk[0] == '!')`. -/
def isNumberedPipeToken (tk : Str) : Bool :=
  decide (2 ≤ tk.length) && (tk.head? == some '|' || tk.head? == some '!')

/-- The `while (i < tokens.size())` loop. The result is `Except.error e` when
`stoi` throws, `Except.ok none` when the loop is left through `break` with
`invalidPipeFound` set, and `Except.ok (some st)` when it runs to the end. -/
def parseLoop : List Str → ParseState → Except StoiError (Option ParseState)
  | [], st => Except.ok (some st)
  | tk :: rest, st =>
    if isNumberedPipeToken tk = true then
      match stoi (tk.drop 1) with
      | Except.error e => Except.error e
      | Except.ok num =>
        if num < 1 ∨ 1000 < num then Except.ok none
        else
          let st1 := flushCurrentCmd false st
          let stderrFlag : Bool := tk.head? == some '!'
          let st2 := setNumberedPipeForPrevCmd num stderrFlag st1
          parseLoop rest { st2 with inNewGroup := true }
    else if tk = ['|'] then
      parseLoop rest (setPipeForPrevCmd (flushCurrentCmd false st))
    else if tk = ['>'] then
      match rest with
      | file :: rest2 =>
        parseLoop rest2
          { st with currentCmd := { st.currentCmd with redirect := true, redirectFile := file } }
      | [] => Except.ok (some st)
    else
      parseLoop rest { st with currentCmd := { st.currentCmd with args := st.currentCmd.args ++ [tk] } }

/-- The body of `parseLine` after tokenization. -/
def parseTokens (tokens : List Str) : Except StoiError (List CommandUnit) :=
  match parseLoop tokens {} with
  | Except.error e => Except.error e
  | Except.ok none => Except.ok []
  | Except.ok (some st) => Except.ok (flushCurrentCmd false st).result

/-- `parseLine`. -/
def parseLine (input : Str) : Except StoiError (List CommandUnit) :=
  parseTokens (tokenize input)

/-! ## Pipeline grouper (npshell.cpp:327-340) -/

/-- The `for` loop of `splitGroups` on the pair `(groups, currentGroup)`. -/
def splitGroupsLoop :
    List CommandUnit → List (List CommandUnit) → List CommandUnit →
      List (List CommandUnit) × List CommandUnit
  | [], groups, currentGroup => (groups, currentGroup)
  | cmd :: rest, groups, currentGroup =>
    if cmd.newGroup = true ∧ currentGroup ≠ [] then
      splitGroupsLoop rest (groups ++ [currentGroup]) [cmd]
    else
      splitGroupsLoop rest groups (currentGroup ++ [cmd])

/-- `splitGroups`. -/
def splitGroups (commands : List CommandUnit) : List (List CommandUnit) :=
  let r := splitGroupsLoop commands [] []
  if r.2 ≠ [] then r.1 ++ [r.2] else r.1

/-! ## Delayed-pipe registry (npshell.cpp:143-201) -/

/-- `MemoryPipeManager::decreaseCountdown`. -/
def decreaseCountdown (s : Shell) : Shell :=
  { s with memoryPipeTable :=
      s.memoryPipeTable.map (fun mp => { mp with countDown := mp.countDown - 1 }) }

/-- The first loop of `getInputFD`: the indices, counted from `i`, of the
entries whose `countDown` is 0. -/
def zeroIndexFrom : Nat → List MemoryPipeData → List Nat
  | _, [] => []
  | i, mp :: rest =>
    if mp.countDown = 0 then i :: zeroIndexFrom (i + 1) rest else zeroIndexFrom (i + 1) rest

/-- The entries `getInputFD` gathers, in the order it appends them. -/
def gathered (s : Shell) : List MemoryPipeData :=
  (zeroIndexFrom 0 s.memoryPipeTable).filterMap (fun i => s.memoryPipeTable[i]?)

/-- The statement `combined.append(memoryPipeTable[i].data)`. -/
def appendEntry (table : List MemoryPipeData) (combined : Str) (i : Nat) : Str :=
  match table[i]? with
  | some mp => combined ++ mp.data
  | none => combined

/-- The second loop of `getInputFD`, over the gathered indices. -/
def combineData (table : List MemoryPipeData) (zeroIndex : List Nat) : Str :=
  zeroIndex.foldl (appendEntry table) []

/-- The third loop of `getInputFD`: erase the gathered indices, last one first. -/
def eraseIndices (table : List MemoryPipeData) (zeroIndex : List Nat) : List MemoryPipeData :=
  zeroIndex.reverse.foldl (fun t i => t.eraseIdx i) table

/-- `MemoryPipeManager::getInputFD`: the content of the returned descriptor
(`none` for `-1`) and the registry afterwards. The helper process only
copies `combined` into the pipe. -/
def getInputFD (consume : Bool) (s : Shell) : Option Str × Shell :=
  let zeroIndex := zeroIndexFrom 0 s.memoryPipeTable
  if zeroIndex = [] then (none, s)
  else
    let combined := normalizeNewline (combineData s.memoryPipeTable zeroIndex)
    let s1 : Shell :=
      if consume = true then { s with memoryPipeTable := eraseIndices s.memoryPipeTable zeroIndex }
      else s
    (some combined, s1)

/-! ## Running commands (npshell.cpp:225-370) -/

/-- A descriptor as its reader sees it: the descriptor `-1`; a readable
descriptor that yields `bytes` and then end of file; or a readable
descriptor that never reaches end of file, because a process that writes
nothing more keeps its write end open. -/
inductive Fd where
  | invalid
  | ended (bytes : Str)
  | stuck
deriving DecidableEq, Repr

/-- The descriptor `getInputFD` returns, as a reader sees it. -/
def fdOfCollected (fd : Option Str) : Fd :=
  match fd with
  | none => Fd.invalid
  | some bytes => Fd.ended bytes

/-- The bytes a reader gets from a descriptor (an `-1` given to
`runSingleCommand` is replaced by an empty pipe). -/
def fdBytes (fd : Fd) : Str :=
  match fd with
  | Fd.ended bytes => bytes
  | _ => []

/-- The processes outside the shell. `childOutput cmd input` is what the
child running `cmd` writes to the descriptor it is given as standard output
when its standard input yields `input` and then end of file; such a child is
taken to exit. `childOnStuckInput cmd` is what it writes when its standard
input never reaches end of file, or `none` when it then never exits. -/
structure World where
  childOutput : CommandUnit → Str → Str
  childOnStuckInput : CommandUnit → Option Str

/-- What the child forked by `runSingleCommand` writes, `none` when it never
exits. -/
def childRun (w : World) (cmd : CommandUnit) (inFd : Fd) : Option Str :=
  match inFd with
  | Fd.stuck => w.childOnStuckInput cmd
  | _ => some (w.childOutput cmd (fdBytes inFd))

/-- What a call of `runSingleCommand` that returns leaves behind. -/
structure StageResult where
  inputForNextCommand : Fd
  childExits : Bool
  shell : Shell
deriving DecidableEq, Repr

/-- `runSingleCommand`; `none` when the call never returns because a `read`
of the shell never sees end of file.

The child writes to `redir[1]` when `cmd.redirect`, else to `pipeFd[1]` when
`cmd.pipeToNext || cmd.pipeNumber > 0`, else to the terminal. The shell
closes only the descriptor the child writes to, so with `cmd.redirect` it
keeps `pipeFd[1]` open: its `read` of `pipeFd[0]` for a numbered pipe then
never ends, and a `pipeFd[0]` handed to the next command never reaches end
of file. The other reads of the shell end when the child exits. -/
def runSingleCommand (w : World) (cmd : CommandUnit) (inFd : Fd) (s : Shell) :
    Option StageResult :=
  let run := childRun w cmd inFd
  if 0 < cmd.pipeNumber then
    if cmd.redirect = true then none
    else
      match run with
      | none => none
      | some resultData =>
        some
          { inputForNextCommand := Fd.invalid,
            childExits := true,
            shell :=
              { memoryPipeTable := s.memoryPipeTable ++
                  [{ creationID := s.globalCreationID, countDown := cmd.pipeNumber,
                     pipeStderr := cmd.pipeToNextStderr, data := resultData }],
                globalCreationID := s.globalCreationID + 1 } }
  else
    let inputForNextCommand : Fd :=
      if cmd.pipeToNext = true then
        if cmd.redirect = true then Fd.stuck
        else
          match run with
          | some out => Fd.ended out
          | none => Fd.stuck
      else Fd.invalid
    if cmd.redirect = true then
      match run with
      | none => none
      | some _ =>
        some { inputForNextCommand := inputForNextCommand, childExits := true, shell := s }
    else
      some { inputForNextCommand := inputForNextCommand, childExits := run.isSome, shell := s }

/-- `mergeInputFDs`: the content of the returned descriptor (`none` inside for
`-1`); `none` outside when `copyAll` never sees the end of a source. -/
def mergeInputFDs (fd1 fd2 : Fd) : Option (Option Str) :=
  match fd1, fd2 with
  | Fd.invalid, Fd.invalid => some none
  | Fd.stuck, _ => none
  | _, Fd.stuck => none
  | _, _ => some (some (fdBytes fd1 ++ fdBytes fd2))

/-- The first loop of `executeLineCommands`: the last `inFd`, whether every
child forked exits, and the registry; `none` when a call of
`runSingleCommand` never returns. -/
def runCommands (w : World) : List CommandUnit → Fd → Shell → Option (Fd × Bool × Shell)
  | [], inFd, s => some (inFd, true, s)
  | cmd :: rest, inFd, s =>
    match runSingleCommand w cmd inFd s with
    | none => none
    | some r =>
      match runCommands w rest r.inputForNextCommand r.shell with
      | none => none
      | some (fd, allExit, s2) => some (fd, r.childExits && allExit, s2)

/-- `executeLineCommands`: what the shell itself writes to its standard
output, and the registry afterwards; `none` when the call never returns (a
`runSingleCommand` that does not return, a `waitpid` on a child that never
exits, or a `mergeInputFDs` that never sees end of file). -/
def executeLineCommands (w : World) (commands : List CommandUnit) (firstInFd : Fd)
    (s : Shell) : Option (Str × Shell) :=
  match runCommands w commands firstInFd s with
  | none => none
  | some (inFd, allExit, s1) =>
    if allExit = false then none
    else
      let lastIsProducer : Bool :=
        match commands.getLast? with
        | some last => decide (0 < last.pipeNumber)
        | none => false
      if lastIsProducer = true then some ([], s1)
      else
        match mergeInputFDs Fd.invalid inFd with
        | none => none
        | some none => some ([], s1)
        | some (some finalOutput) => some (normalizeNewline finalOutput, s1)

/-! ## The line loop (npshell.cpp:203-221, 372-404) -/

/-- What `handleBuiltInCommands` does with a non-empty token list. -/
inductive BuiltIn where
  | exits
  | handled
  | notBuiltIn
deriving DecidableEq, Repr

/-- `handleBuiltInCommands` (the environment itself is not modelled). -/
def handleBuiltInCommands (tokens : List Str) : BuiltIn :=
  match tokens with
  | [] => BuiltIn.handled
  | cmd :: _ =>
    if 4 ≤ cmd.length ∧ cmd.take 4 = ['e', 'x', 'i', 't'] then BuiltIn.exits
    else if cmd = ['s', 'e', 't', 'e', 'n', 'v'] ∧ tokens.length = 3 then BuiltIn.handled
    else if cmd = ['p', 'r', 'i', 'n', 't', 'e', 'n', 'v'] ∧ tokens.length = 2 then BuiltIn.handled
    else BuiltIn.notBuiltIn

/-- The body of `for (auto &group : groups)` in `main`, before the aging:
`getInputFD(true)` then `executeLineCommands`; `none` when the shell never
gets through it. -/
def runGroupBeforeAging (w : World) (group : List CommandUnit) (s : Shell) : Option Shell :=
  let c := getInputFD true s
  match executeLineCommands w group (fdOfCollected c.1) c.2 with
  | none => none
  | some r => some r.2

/-- The body of `for (auto &group : groups)` in `main`. -/
def runGroup (w : World) (group : List CommandUnit) (s : Shell) : Option Shell :=
  match runGroupBeforeAging w group s with
  | none => none
  | some s1 => some (decreaseCountdown s1)

/-- The `for (auto &group : groups)` loop of `main`. -/
def runGroups (w : World) : List (List CommandUnit) → Shell → Option Shell
  | [], s => some s
  | g :: rest, s =>
    match runGroup w g s with
    | none => none
    | some s1 => runGroups w rest s1

/-- The built-in branch of `main`: `decreaseCountdown`, `getInputFD(true)`,
`flushFdToStdout`. Gives the bytes flushed and the registry afterwards. -/
def builtInFlush (s : Shell) : Str × Shell :=
  let c := getInputFD true (decreaseCountdown s)
  (flushFdToStdout c.1, c.2)

/-- Why the line loop goes no further: `exit`, an exception nothing catches,
or a call that never returns. -/
inductive Halt where
  | exited
  | uncaught (e : StoiError)
  | blocked
deriving DecidableEq, Repr

/-- One iteration of the `while (true)` loop of `main` on a line that was read. -/
def processLine (w : World) (line : Str) (s : Shell) : Except Halt Shell :=
  let tokens := tokenize line
  if tokens = [] then Except.ok s
  else
    match handleBuiltInCommands tokens with
    | BuiltIn.exits => Except.error Halt.exited
    | BuiltIn.handled => Except.ok (builtInFlush s).2
    | BuiltIn.notBuiltIn =>
      match parseLine line with
      | Except.error e => Except.error (Halt.uncaught e)
      | Except.ok commands =>
        match runGroups w (splitGroups commands) s with
        | none => Except.error Halt.blocked
        | some s1 => Except.ok s1

/-- The line loop on a list of lines. -/
def runLines (w : World) : List Str → Shell → Except Halt Shell
  | [], s => Except.ok s
  | line :: rest, s =>
    match processLine w line s with
    | Except.error h => Except.error h
    | Except.ok s1 => runLines w rest s1

/-! ## Vocabulary of the statements -/

/-- Registry states the shell can be in: the table starts empty and is only
changed by the insert at the end of `runSingleCommand`, by
`decreaseCountdown` and by `getInputFD(true)`. -/
inductive Reachable : Shell → Prop where
  | start : Reachable {}
  | insert (s : Shell) (countDown : Int) (pipeStderr : Bool) (data : Str) :
      Reachable s →
      Reachable
        { memoryPipeTable := s.memoryPipeTable ++
            [{ creationID := s.globalCreationID, countDown := countDown,
               pipeStderr := pipeStderr, data := data }],
          globalCreationID := s.globalCreationID + 1 }
  | age (s : Shell) : Reachable s → Reachable (decreaseCountdown s)
  | collect (s : Shell) : Reachable s → Reachable (getInputFD true s).2

/-- Registry states reached from the empty registry by executed groups only. -/
inductive GroupReachable (w : World) : Shell → Prop where
  | start : GroupReachable w {}
  | group (s s1 : Shell) (g : List CommandUnit) :
      GroupReachable w s → runGroup w g s = some s1 → GroupReachable w s1

/-- The stage sends its output to a file and is also asked to pipe it: the
combination on which `runSingleCommand` keeps `pipeFd[1]` open. -/
def LeaksPipe (cmd : CommandUnit) : Prop :=
  cmd.redirect = true ∧ (cmd.pipeToNext = true ∨ 0 < cmd.pipeNumber)

instance (cmd : CommandUnit) : Decidable (LeaksPipe cmd) :=
  inferInstanceAs (Decidable (cmd.redirect = true ∧ (cmd.pipeToNext = true ∨ 0 < cmd.pipeNumber)))

/-- Collection as the specification words it: the payloads of the entries
with `countDown == 0`, oldest `creationID` first, concatenated, with the
trailing newline normalised. -/
def collectSpec (table : List MemoryPipeData) : Str :=
  normalizeNewline
    (((table.filter (fun mp => decide (mp.countDown = 0))).insertionSort
        (fun a b => a.creationID ≤ b.creationID)).map (fun mp => mp.data)).flatten

/-- A group with each stage tagged by whether it is the first of the group. -/
def markFirst (g : List CommandUnit) : List (CommandUnit × Bool) :=
  match g with
  | [] => []
  | c :: rest => (c, true) :: rest.map (fun d => (d, false))

/-- A descriptor sequence with each descriptor tagged by "is the first of the
sequence or has `newGroup`". -/
def firstFlags (cs : List CommandUnit) : List (CommandUnit × Bool) :=
  match cs with
  | [] => []
  | c :: rest => (c, true) :: rest.map (fun d => (d, d.newGroup))

/-- Number of numbered-pipe producers among `cmds`. -/
def producers (cmds : List CommandUnit) : Nat :=
  (cmds.filter (fun c => decide (0 < c.pipeNumber))).length

/-- The previous descriptor lets the next one start a group: there is none,
or it is a numbered-pipe producer. -/
def startsGroup (prev : Option CommandUnit) : Prop :=
  match prev with
  | none => True
  | some p => 0 < p.pipeNumber

/-- Along the sequence, `newGroup` is set exactly on the descriptors that
come first or right after a numbered-pipe producer. -/
def flagsFrom : Option CommandUnit → List CommandUnit → Prop
  | _, [] => True
  | prev, d :: rest => (d.newGroup = true ↔ startsGroup prev) ∧ flagsFrom (some d) rest

/-- The output routing that `parseLine` can give a descriptor. -/
def Routed (d : CommandUnit) : Prop :=
  (0 < d.pipeNumber → d.pipeToNext = true) ∧ 0 ≤ d.pipeNumber ∧ d.pipeNumber ≤ 1000 ∧
    (d.pipeToNextStderr = true → 0 < d.pipeNumber)

/-- What holds of the locals of `parseLine` at every turn of its loop. -/
def ParseInv (st : ParseState) : Prop :=
  st.currentCmd.newGroup = false ∧
  (∀ d ∈ st.result, Routed d) ∧
  flagsFrom none st.result ∧
  (st.inNewGroup = true ↔ startsGroup st.result.getLast?)

/-- A group is closed by a numbered-pipe producer, its only one. -/
def ClosedGroup (g : List CommandUnit) : Prop :=
  (∀ d ∈ g.dropLast, ¬ 0 < d.pipeNumber) ∧ ∃ d, g.getLast? = some d ∧ 0 < d.pipeNumber

/-- A token that reaches the last `else` of the loop of `parseLine`: it fails
the numbered-pipe test and is neither `|` nor `>`. -/
def PlainWord (tk : Str) : Prop :=
  isNumberedPipeToken tk = false ∧ tk ≠ ['|'] ∧ tk ≠ ['>']

instance (tk : Str) : Decidable (PlainWord tk) :=
  inferInstanceAs (Decidable (isNumberedPipeToken tk = false ∧ tk ≠ ['|'] ∧ tk ≠ ['>']))

/-- What a command is written with: a word, or `>` and its file name. -/
inductive Item where
  | word (w : Str)
  | redir (file : Str)
deriving DecidableEq, Repr

/-- An operator that ends a command: `|`, or a numbered-pipe token together
with the number the parser reads from it. -/
inductive Op where
  | pipe
  | numbered (tk : Str) (n : Int)
deriving DecidableEq, Repr

/-- A command followed by the operator that ends it. -/
structure Segment where
  items : List Item
  op : Op
deriving DecidableEq, Repr

/-- A command line by its parts: an operator that may stand before any
command, the commands ended by an operator, the last command, and a `>`
without file name that may end the line. -/
structure Line where
  lead : Option Op := none
  segs : List Segment := []
  last : List Item := []
  dangling : Bool := false
deriving DecidableEq, Repr

/-- The tokens of an item. -/
def renderItem : Item → List Str
  | Item.word w => [w]
  | Item.redir file => [['>'], file]

/-- The token of an operator. -/
def renderOp : Op → Str
  | Op.pipe => ['|']
  | Op.numbered tk _ => tk

/-- The tokens of a command and its operator. -/
def renderSegment (sg : Segment) : List Str :=
  sg.items.flatMap renderItem ++ [renderOp sg.op]

/-- The tokens of a line. -/
def render (l : Line) : List Str :=
  (match l.lead with
    | none => []
    | some op => [renderOp op]) ++
  l.segs.flatMap renderSegment ++ l.last.flatMap renderItem ++
  (if l.dangling = true then [['>']] else [])

/-- Words are plain; file names are any token. -/
def ItemOK : Item → Prop
  | Item.word w => PlainWord w
  | Item.redir _ => True

instance : (it : Item) → Decidable (ItemOK it)
  | Item.word w => inferInstanceAs (Decidable (PlainWord w))
  | Item.redir _ => inferInstanceAs (Decidable True)

/-- Equality of the results of `stoi` can be decided. -/
instance (a b : Except StoiError Int) : Decidable (a = b) :=
  match a, b with
  | Except.ok x, Except.ok y =>
    if h : x = y then isTrue (by rw [h]) else isFalse (fun hh => h (by cases hh; rfl))
  | Except.error x, Except.error y =>
    if h : x = y then isTrue (by rw [h]) else isFalse (fun hh => h (by cases hh; rfl))
  | Except.ok _, Except.error _ => isFalse (fun hh => by cases hh)
  | Except.error _, Except.ok _ => isFalse (fun hh => by cases hh)

/-- A numbered-pipe token passes the parser's test, and `stoi` reads from it
the number `n`, which lies in [1,1000]. -/
def OpOK : Op → Prop
  | Op.pipe => True
  | Op.numbered tk n =>
    isNumberedPipeToken tk = true ∧ stoi (tk.drop 1) = Except.ok n ∧ 1 ≤ n ∧ n ≤ 1000

instance : (op : Op) → Decidable (OpOK op)
  | Op.pipe => inferInstanceAs (Decidable True)
  | Op.numbered tk n =>
    inferInstanceAs (Decidable
      (isNumberedPipeToken tk = true ∧ stoi (tk.drop 1) = Except.ok n ∧ 1 ≤ n ∧ n ≤ 1000))

/-- No two operators are adjacent and every operator after the first token
directly follows a command with at least one word or redirect. -/
def WellFormed (l : Line) : Prop :=
  (∀ op ∈ l.lead, OpOK op) ∧
  (∀ sg ∈ l.segs, sg.items ≠ [] ∧ OpOK sg.op ∧ ∀ it ∈ sg.items, ItemOK it) ∧
  (∀ it ∈ l.last, ItemOK it)

instance (l : Line) : Decidable (WellFormed l) :=
  inferInstanceAs (Decidable
    ((∀ op ∈ l.lead, OpOK op) ∧
     (∀ sg ∈ l.segs, sg.items ≠ [] ∧ OpOK sg.op ∧ ∀ it ∈ sg.items, ItemOK it) ∧
     (∀ it ∈ l.last, ItemOK it)))

/-- The statements `currentCmd.args.push_back(tk)` and
`currentCmd.redirect = true; currentCmd.redirectFile = tokens[i]`. -/
def applyItem (cmd : CommandUnit) : Item → CommandUnit
  | Item.word w => { cmd with args := cmd.args ++ [w] }
  | Item.redir file => { cmd with redirect := true, redirectFile := file }

/-- The words of a command. -/
def itemWords (items : List Item) : List Str :=
  items.filterMap (fun it =>
    match it with
    | Item.word w => some w
    | Item.redir _ => none)

/-- The number an operator carries (0 for `|`). -/
def opNumber : Op → Int
  | Op.pipe => 0
  | Op.numbered _ n => n

/-- The operator is a numbered-pipe token that begins with `!`. -/
def opStderr : Op → Bool
  | Op.pipe => false
  | Op.numbered tk _ => tk.head? == some '!'

/-- The operator is a numbered-pipe token. -/
def opIsNumbered : Op → Bool
  | Op.pipe => false
  | Op.numbered _ _ => true

/-- The descriptor the parser builds for a command ended by `op`, when
`inNewGroup` had the value `ng`. -/
def descOf (ng : Bool) (sg : Segment) : CommandUnit :=
  { sg.items.foldl applyItem {} with
    newGroup := ng, pipeNumber := opNumber sg.op, pipeToNextStderr := opStderr sg.op,
    pipeToNext := true }

/-- The descriptors of the commands ended by an operator. -/
def descsFrom : Bool → List Segment → List CommandUnit
  | _, [] => []
  | ng, sg :: rest => descOf ng sg :: descsFrom (opIsNumbered sg.op) rest

/-- The value of `inNewGroup` after the commands ended by an operator. -/
def flagAfter : Bool → List Segment → Bool
  | ng, [] => ng
  | _, sg :: rest => flagAfter (opIsNumbered sg.op) rest

/-- Per descriptor, in order: its words, the pipe number and the stderr flag
the line asks for. -/
def expectedPipes (l : Line) : List (List Str × Int × Bool) :=
  l.segs.map (fun sg => (itemWords sg.items, opNumber sg.op, opStderr sg.op)) ++
  (if l.last = [] then [] else [(itemWords l.last, 0, false)])

/-- A world in which every child writes the same bytes and exits. -/
def constWorld (out : Str) : World :=
  { childOutput := fun _ _ => out, childOnStuckInput := fun _ => some out }

/-- The registry right before the collect of the `(k+1)`-th group that
follows the group `g0`, when the groups `gs` follow it; `none` when the shell
never gets there. -/
def stateBefore (w : World) (g0 : List CommandUnit) (gs : List (List CommandUnit)) (k : Nat)
    (s0 : Shell) : Option Shell :=
  match runGroup w g0 s0 with
  | none => none
  | some s1 => runGroups w (gs.take k) s1

/-- The bytes on the standard input of the stage that runs after the stages
`pre` of its group, the group starting from the registry `s0`. -/
def stageInput (w : World) (s0 : Shell) (pre : List CommandUnit) : Str :=
  let c := getInputFD true s0
  match runCommands w pre (fdOfCollected c.1) c.2 with
  | some r => fdBytes r.1
  | none => []

/-- The registry entry that the stage `cmd`, run after the stages `pre` of its
group from the registry `s0`, inserts, as it looks once its countdown has
reached 0. -/
def capturedEntry (w : World) (s0 : Shell) (pre : List CommandUnit) (cmd : CommandUnit) :
    MemoryPipeData :=
  { creationID := s0.globalCreationID + producers pre,
    countDown := 0,
    pipeStderr := cmd.pipeToNextStderr,
    data := w.childOutput cmd (stageInput w s0 pre) }

/-- No entry of the registry carries the creation id `id`, and none will. -/
def Absent (s : Shell) (id : Nat) : Prop :=
  id < s.globalCreationID ∧ ∀ mp ∈ s.memoryPipeTable, mp.creationID ≠ id

/-! # Theorems -/

/-! ## Trailing newline -/

theorem zeroIndexFrom_succ (t : List MemoryPipeData) (i : Nat) :
    zeroIndexFrom (i + 1) t = (zeroIndexFrom i t).map (fun j => j + 1) := by
  induction t generalizing i with
  | nil => rfl
  | cons mp rest ih =>
    by_cases h : mp.countDown = 0
    · simp [zeroIndexFrom, h, ih (i + 1)]
    · simp [zeroIndexFrom, h, ih (i + 1)]

theorem filterMap_get?_zeroIndex (t : List MemoryPipeData) :
    (zeroIndexFrom 0 t).filterMap (fun i => t[i]?)
      = t.filter (fun mp => decide (mp.countDown = 0)) := by
  induction t with
  | nil => rfl
  | cons mp rest ih =>
    have hshift : (zeroIndexFrom 1 rest).filterMap (fun i => (mp :: rest)[i]?)
        = rest.filter (fun mp => decide (mp.countDown = 0)) := by
      rw [← ih, zeroIndexFrom_succ, List.filterMap_map]
      congr 1
      funext i
      simp
    by_cases h : mp.countDown = 0
    · simp only [zeroIndexFrom, h, if_true, Nat.zero_add]
      rw [List.filterMap_cons, hshift]
      simp [h]
    · simp only [zeroIndexFrom, h, if_false, Nat.zero_add]
      rw [hshift]
      simp [h]

theorem gathered_eq_filter (s : Shell) :
    gathered s = s.memoryPipeTable.filter (fun mp => decide (mp.countDown = 0)) :=
  filterMap_get?_zeroIndex s.memoryPipeTable

theorem combineData_foldl (t : List MemoryPipeData) (zi : List Nat) (acc : Str) :
    zi.foldl (appendEntry t) acc
      = acc ++ ((zi.filterMap (fun i => t[i]?)).map (fun mp => mp.data)).flatten := by
  induction zi generalizing acc with
  | nil => simp
  | cons i rest ih =>
    rw [List.foldl_cons, ih]
    cases hg : t[i]? with
    | none => simp [appendEntry, hg]
    | some mp => simp [appendEntry, hg, List.append_assoc]

theorem combineData_zeroIndex (t : List MemoryPipeData) :
    combineData t (zeroIndexFrom 0 t)
      = ((t.filter (fun mp => decide (mp.countDown = 0))).map (fun mp => mp.data)).flatten := by
  unfold combineData
  rw [combineData_foldl, filterMap_get?_zeroIndex]
  simp

theorem eraseIdx_foldr_succ (mp : MemoryPipeData) (t : List MemoryPipeData) (zi : List Nat) :
    (zi.map (fun j => j + 1)).foldr (fun i l => l.eraseIdx i) (mp :: t)
      = mp :: zi.foldr (fun i l => l.eraseIdx i) t := by
  induction zi with
  | nil => rfl
  | cons i rest ih => simp [ih]

theorem eraseIndices_zeroIndex (t : List MemoryPipeData) :
    eraseIndices t (zeroIndexFrom 0 t)
      = t.filter (fun mp => decide (mp.countDown ≠ 0)) := by
  unfold eraseIndices
  rw [List.foldl_reverse]
  induction t with
  | nil => rfl
  | cons mp rest ih =>
    by_cases h : mp.countDown = 0
    · simp only [zeroIndexFrom, h, if_true, zeroIndexFrom_succ, Nat.zero_add, List.foldr_cons]
      rw [eraseIdx_foldr_succ, ih]
      simp [h]
    · simp only [zeroIndexFrom, h, if_false, zeroIndexFrom_succ, Nat.zero_add]
      rw [eraseIdx_foldr_succ, ih]
      simp [h]

theorem zeroIndexFrom_eq_nil_iff (t : List MemoryPipeData) (i : Nat) :
    zeroIndexFrom i t = [] ↔ ∀ mp ∈ t, mp.countDown ≠ 0 := by
  induction t generalizing i with
  | nil => simp [zeroIndexFrom]
  | cons mp rest ih =>
    by_cases h : mp.countDown = 0
    · simp [zeroIndexFrom, h]
    · simp [zeroIndexFrom, h, ih (i + 1)]

/-- What `getInputFD(true)` computes, in closed form. -/
theorem getInputFD_consume (s : Shell) :
    getInputFD true s =
      (if (∀ mp ∈ s.memoryPipeTable, mp.countDown ≠ 0) then none
        else some (normalizeNewline
          ((s.memoryPipeTable.filter (fun mp => decide (mp.countDown = 0))).map
            (fun mp => mp.data)).flatten),
       { s with memoryPipeTable :=
          s.memoryPipeTable.filter (fun mp => decide (mp.countDown ≠ 0)) }) := by
  unfold getInputFD
  by_cases h : zeroIndexFrom 0 s.memoryPipeTable = []
  · have h2 := (zeroIndexFrom_eq_nil_iff _ _).1 h
    simp only [h, if_true]
    rw [if_pos h2]
    have : s.memoryPipeTable.filter (fun mp => decide (mp.countDown ≠ 0)) = s.memoryPipeTable := by
      rw [List.filter_eq_self]
      intro mp hmp
      simpa using h2 mp hmp
    rw [this]
  · have h2 : ¬ ∀ mp ∈ s.memoryPipeTable, mp.countDown ≠ 0 :=
      fun hh => h ((zeroIndexFrom_eq_nil_iff _ _).2 hh)
    simp only [h, if_false, if_true]
    rw [if_neg h2, combineData_zeroIndex, eraseIndices_zeroIndex]

theorem reachable_ids {s : Shell} (h : Reachable s) :
    s.memoryPipeTable.Pairwise (fun a b => a.creationID < b.creationID) ∧
      ∀ mp ∈ s.memoryPipeTable, mp.creationID < s.globalCreationID := by
  induction h with
  | start => exact ⟨List.Pairwise.nil, by intro mp hmp; cases hmp⟩
  | insert s cd se d _ ih =>
    obtain ⟨ih1, ih2⟩ := ih
    constructor
    · rw [List.pairwise_append]
      refine ⟨ih1, List.pairwise_singleton _ _, ?_⟩
      intro a ha b hb
      rw [List.mem_singleton] at hb
      subst hb
      exact ih2 a ha
    · intro mp hmp
      rw [List.mem_append, List.mem_singleton] at hmp
      rcases hmp with hmp | hmp
      · exact Nat.lt_succ_of_lt (ih2 mp hmp)
      · subst hmp
        exact Nat.lt_succ_self _
  | age s _ ih =>
    obtain ⟨ih1, ih2⟩ := ih
    constructor
    · simp only [decreaseCountdown, List.pairwise_map]
      exact ih1
    · intro mp hmp
      simp only [decreaseCountdown, List.mem_map] at hmp
      obtain ⟨a, ha, rfl⟩ := hmp
      exact ih2 a ha
  | collect s _ ih =>
    obtain ⟨ih1, ih2⟩ := ih
    rw [getInputFD_consume]
    constructor
    · exact ih1.sublist (List.filter_sublist _)
    · intro mp hmp
      exact ih2 mp (List.mem_of_mem_filter hmp)

theorem collectSpec_eq {t : List MemoryPipeData}
    (h : t.Pairwise (fun a b => a.creationID < b.creationID)) :
    collectSpec t = normalizeNewline
      ((t.filter (fun mp => decide (mp.countDown = 0))).map (fun mp => mp.data)).flatten := by
  unfold collectSpec
  rw [List.Sorted.insertionSort_eq]
  have h2 : (t.filter (fun mp => decide (mp.countDown = 0))).Pairwise
      (fun a b => a.creationID < b.creationID) := h.sublist (List.filter_sublist _)
  exact h2.imp (fun hab => Nat.le_of_lt hab)

theorem filter_zero_eq_nil {t : List MemoryPipeData} (h : ∀ mp ∈ t, mp.countDown ≠ 0) :
    t.filter (fun mp => decide (mp.countDown = 0)) = [] := by
  rw [List.filter_eq_nil_iff]
  intro mp hmp
  simpa using h mp hmp

/-- Claim C2. In every reachable registry, `getInputFD(true)` yields the
payloads of the entries with `countDown == 0`, oldest `creationID` first,
concatenated and newline-normalised (`collectSpec`); afterwards the table is
the entries with `countDown != 0` in their order, and `globalCreationID` is
untouched. When no entry has `countDown` 0 nothing is returned and the
registry is unchanged, and a collect right after a collect returns nothing
and changes nothing. -/
theorem getInputFD_collects (s : Shell) (h : Reachable s) :
    (getInputFD true s).1.getD [] = collectSpec s.memoryPipeTable ∧
    (getInputFD true s).2.memoryPipeTable
      = s.memoryPipeTable.filter (fun mp => decide (mp.countDown ≠ 0)) ∧
    (getInputFD true s).2.globalCreationID = s.globalCreationID ∧
    ((∀ mp ∈ s.memoryPipeTable, mp.countDown ≠ 0) → getInputFD true s = (none, s)) ∧
    getInputFD true (getInputFD true s).2 = (none, (getInputFD true s).2) := by
  have hids := (reachable_ids h).1
  refine ⟨?_, ?_, ?_, ?_, ?_⟩
  · rw [collectSpec_eq hids, getInputFD_consume]
    by_cases hz : ∀ mp ∈ s.memoryPipeTable, mp.countDown ≠ 0
    · simp only [if_pos hz, Option.getD_none]
      rw [filter_zero_eq_nil hz]
      rfl
    · simp only [if_neg hz, Option.getD_some]
  · rw [getInputFD_consume]
  · rw [getInputFD_consume]
  · intro hz
    rw [getInputFD_consume, if_pos hz]
    congr 1
    have : s.memoryPipeTable.filter (fun mp => decide (mp.countDown ≠ 0)) = s.memoryPipeTable := by
      rw [List.filter_eq_self]
      intro mp hmp
      simpa using hz mp hmp
    rw [this]
  · have hz : ∀ mp ∈ (getInputFD true s).2.memoryPipeTable, mp.countDown ≠ 0 := by
      rw [getInputFD_consume]
      intro mp hmp
      simpa using (List.mem_filter.1 hmp).2
    rw [getInputFD_consume (getInputFD true s).2, if_pos hz]
    congr 1
    have : (getInputFD true s).2.memoryPipeTable.filter (fun mp => decide (mp.countDown ≠ 0))
        = (getInputFD true s).2.memoryPipeTable := by
      rw [List.filter_eq_self]
      intro mp hmp
      simpa using hz mp hmp
    rw [this]

/-! ## splitGroups -/

theorem markFirst_append_singleton (cur : List CommandUnit) (c : CommandUnit) (h : cur ≠ []) :
    markFirst (cur ++ [c]) = markFirst cur ++ [(c, false)] := by
  cases cur with
  | nil => exact absurd rfl h
  | cons a l => simp [markFirst]

theorem splitGroupsLoop_flatten (rest : List CommandUnit) (groups : List (List CommandUnit))
    (cur : List CommandUnit) :
    ((splitGroupsLoop rest groups cur).1 ++ [(splitGroupsLoop rest groups cur).2]).flatten
      = groups.flatten ++ cur ++ rest := by
  induction rest generalizing groups cur with
  | nil => simp [splitGroupsLoop]
  | cons c rest ih =>
    unfold splitGroupsLoop
    split
    · rw [ih]; simp
    · rw [ih]; simp

theorem splitGroupsLoop_nonempty (rest : List CommandUnit) (groups : List (List CommandUnit))
    (cur : List CommandUnit) (hg : ∀ g ∈ groups, g ≠ []) :
    ∀ g ∈ (splitGroupsLoop rest groups cur).1, g ≠ [] := by
  induction rest generalizing groups cur with
  | nil => simpa [splitGroupsLoop] using hg
  | cons c rest ih =>
    unfold splitGroupsLoop
    split
    · rename_i hc
      apply ih
      intro g hgm
      rw [List.mem_append, List.mem_singleton] at hgm
      rcases hgm with hgm | hgm
      · exact hg g hgm
      · rw [hgm]; exact hc.2
    · exact ih _ _ hg

theorem splitGroupsLoop_flags (rest : List CommandUnit) (groups : List (List CommandUnit))
    (cur : List CommandUnit) :
    ((splitGroupsLoop rest groups cur).1 ++ [(splitGroupsLoop rest groups cur).2]).flatMap markFirst
      = groups.flatMap markFirst ++
          (if cur = [] then firstFlags rest
            else markFirst cur ++ rest.map (fun d => (d, d.newGroup))) := by
  induction rest generalizing groups cur with
  | nil =>
    by_cases hc : cur = []
    · simp [splitGroupsLoop, hc, markFirst, firstFlags]
    · simp [splitGroupsLoop, hc]
  | cons c rest ih =>
    unfold splitGroupsLoop
    split
    · rename_i hc
      rw [ih, if_neg (by simp), if_neg hc.2]
      simp [markFirst, hc.1]
    · rename_i hc
      rw [ih, if_neg (by simp)]
      by_cases hcur : cur = []
      · subst hcur
        simp [markFirst, firstFlags]
      · have hng : c.newGroup = false := by
          cases hn : c.newGroup with
          | false => rfl
          | true => exact absurd ⟨hn, hcur⟩ hc
        rw [if_neg hcur, markFirst_append_singleton cur c hcur]
        simp [hng]

/-- Claim C5. `splitGroups cs` cuts `cs` into consecutive non-empty groups:
the groups concatenated give back `cs`, no group is empty, and a descriptor
is the first of its group exactly when it is the first of `cs` or has
`newGroup` set (the stages tagged "first of its group" are the descriptors
tagged "first of `cs` or `newGroup`"). -/
theorem splitGroups_partition (cs : List CommandUnit) :
    (splitGroups cs).flatten = cs ∧
    (∀ g ∈ splitGroups cs, g ≠ []) ∧
    (splitGroups cs).flatMap markFirst = firstFlags cs := by
  have h1 := splitGroupsLoop_flatten cs [] []
  have h2 := splitGroupsLoop_nonempty cs [] [] (by intro g hg; cases hg)
  have h3 := splitGroupsLoop_flags cs [] []
  unfold splitGroups
  by_cases hl : (splitGroupsLoop cs [] []).2 = []
  · rw [hl] at h1 h3
    simp only [hl, ne_eq, not_true_eq_false, if_false]
    refine ⟨?_, h2, ?_⟩
    · simpa using h1
    · simpa [markFirst] using h3
  · simp only [ne_eq, hl, not_false_eq_true, if_true]
    refine ⟨?_, ?_, ?_⟩
    · simpa using h1
    · intro g hg
      rw [List.mem_append, List.mem_singleton] at hg
      rcases hg with hg | hg
      · exact h2 g hg
      · rw [hg]; exact hl
    · simpa using h3

/-! ## Parser invariants -/

theorem modifyBack_append_singleton {α : Type} (f : α → α) (l : List α) (x : α) :
    modifyBack f (l ++ [x]) = l ++ [f x] := by
  induction l with
  | nil => rfl
  | cons a l ih =>
    cases l with
    | nil => rfl
    | cons b l => 
      have : (a :: b :: l) ++ [x] = a :: b :: (l ++ [x]) := rfl
      rw [this, modifyBack]
      have h2 : b :: (l ++ [x]) = (b :: l) ++ [x] := rfl
      rw [h2, ih]
      rfl

theorem flagsFrom_append_singleton (prev : Option CommandUnit) (l : List CommandUnit)
    (x : CommandUnit) :
    flagsFrom prev (l ++ [x]) ↔
      flagsFrom prev l ∧
        (x.newGroup = true ↔ startsGroup (match l.getLast? with
          | some p => some p
          | none => prev)) := by
  induction l generalizing prev with
  | nil => simp [flagsFrom]
  | cons a l ih =>
    have h1 : (a :: l) ++ [x] = a :: (l ++ [x]) := rfl
    rw [h1, flagsFrom, flagsFrom, ih (some a), and_assoc]
    have h2 : (match (a :: l).getLast? with
          | some p => some p
          | none => prev) = (match l.getLast? with
          | some p => some p
          | none => some a) := by
      cases l with
      | nil => rfl
      | cons b l =>
        rw [List.getLast?_cons_cons, List.getLast?_eq_getLast (b :: l) (by simp)]
    rw [h2]

theorem flagsFrom_none_snoc (l : List CommandUnit) (x : CommandUnit) :
    flagsFrom none (l ++ [x]) ↔
      flagsFrom none l ∧ (x.newGroup = true ↔ startsGroup l.getLast?) := by
  rw [flagsFrom_append_singleton]
  cases l.getLast? <;> rfl

theorem parseInv_start : ParseInv {} := by
  refine ⟨rfl, ?_, trivial, ?_⟩
  · intro d hd; cases hd
  · simp [startsGroup]

theorem parseInv_flush {st : ParseState} (h : ParseInv st) :
    ParseInv (flushCurrentCmd false st) := by
  obtain ⟨h1, h2, h3, h4⟩ := h
  unfold flushCurrentCmd
  by_cases hc : st.currentCmd.args ≠ [] ∨ st.currentCmd.redirect = true
  · simp only [if_pos hc]
    by_cases hn : st.inNewGroup = true
    · simp only [if_pos hn]
      refine ⟨rfl, ?_, ?_, ?_⟩
      · intro d hd
        rw [List.mem_append, List.mem_singleton] at hd
        rcases hd with hd | hd
        · exact h2 d hd
        · subst hd
          simp [Routed]
      · rw [flagsFrom_none_snoc]
        exact ⟨h3, by simpa using h4.1 hn⟩
      · simp [startsGroup]
    · simp only [if_neg hn]
      refine ⟨rfl, ?_, ?_, ?_⟩
      · intro d hd
        rw [List.mem_append, List.mem_singleton] at hd
        rcases hd with hd | hd
        · exact h2 d hd
        · subst hd
          simp [Routed]
      · rw [flagsFrom_none_snoc]
        refine ⟨h3, ?_⟩
        simp only [h1]
        constructor
        · intro hf; cases hf
        · intro hs; exact absurd (h4.2 hs) hn
      · simp [startsGroup, hn]
  · simp only [if_neg hc]
    exact ⟨rfl, h2, h3, by simpa using h4⟩

theorem parseInv_modifyBack {st : ParseState} (f : CommandUnit → CommandUnit) (b : Bool)
    (h : ParseInv st)
    (hng : ∀ c, (f c).newGroup = c.newGroup)
    (hr : ∀ c, Routed c → Routed (f c))
    (hb : ∀ c, (st.inNewGroup = true ↔ 0 < c.pipeNumber) → (b = true ↔ 0 < (f c).pipeNumber))
    (he : st.result = [] → b = true) :
    ParseInv { st with result := modifyBack f st.result, inNewGroup := b } := by
  obtain ⟨h1, h2, h3, h4⟩ := h
  rcases List.eq_nil_or_concat st.result with hnil | ⟨l, x, hl⟩
  · have hbt := he hnil
    rw [hnil]
    refine ⟨h1, ?_, trivial, ?_⟩
    · intro d hd; cases hd
    · simp [modifyBack, startsGroup, hbt]
  · rw [List.concat_eq_append] at hl
    rw [hl] at h2 h3 h4
    rw [hl, modifyBack_append_singleton]
    refine ⟨h1, ?_, ?_, ?_⟩
    · intro d hd
      rw [List.mem_append, List.mem_singleton] at hd
      rcases hd with hd | hd
      · exact h2 d (List.mem_append_left _ hd)
      · subst hd
        exact hr x (h2 x (by simp))
    · rw [flagsFrom_none_snoc] at h3 ⊢
      refine ⟨h3.1, ?_⟩
      rw [hng]
      exact h3.2
    · simp only [List.getLast?_concat, startsGroup] at h4 ⊢
      exact hb x h4

theorem parseInv_setPipe {st : ParseState} (h : ParseInv st) :
    ParseInv (setPipeForPrevCmd st) := by
  have := parseInv_modifyBack (fun c => { c with pipeToNext := true }) st.inNewGroup h
    (fun _ => rfl)
    (fun c hc => ⟨fun _ => rfl, hc.2.1, hc.2.2.1, hc.2.2.2⟩)
    (fun c hc => hc)
    (fun he => by simpa [he, startsGroup] using h.2.2.2)
  exact this

theorem parseInv_setNumbered {st : ParseState} (h : ParseInv st) (n : Int) (b : Bool)
    (h1 : 1 ≤ n) (h2 : n ≤ 1000) :
    ParseInv { setNumberedPipeForPrevCmd n b st with inNewGroup := true } := by
  have := parseInv_modifyBack
    (fun c => { c with pipeNumber := n, pipeToNextStderr := b, pipeToNext := true }) true h
    (fun _ => rfl)
    (fun c _ => ⟨fun _ => rfl, by show 0 ≤ n; omega, h2, fun _ => by show 0 < n; omega⟩)
    (fun c _ => ⟨fun _ => by show 0 < n; omega, fun _ => rfl⟩)
    (fun _ => rfl)
  exact this

theorem parseInv_currentCmd {st : ParseState} (h : ParseInv st) (c : CommandUnit)
    (hc : c.newGroup = false) : ParseInv { st with currentCmd := c } :=
  ⟨hc, h.2.1, h.2.2.1, h.2.2.2⟩

theorem parseLoop_throw (tk : Str) (rest : List Str) (st : ParseState)
    (h : isNumberedPipeToken tk = true) (e : StoiError)
    (hs : stoi (tk.drop 1) = Except.error e) :
    parseLoop (tk :: rest) st = Except.error e := by
  cases rest <;> simp only [parseLoop, h, if_true, hs]

theorem parseLoop_invalid (tk : Str) (rest : List Str) (st : ParseState)
    (h : isNumberedPipeToken tk = true) (num : Int)
    (hs : stoi (tk.drop 1) = Except.ok num) (hbad : num < 1 ∨ 1000 < num) :
    parseLoop (tk :: rest) st = Except.ok none := by
  cases rest <;> simp only [parseLoop, h, if_true, hs, hbad]

theorem parseLoop_numbered (tk : Str) (rest : List Str) (st : ParseState)
    (h : isNumberedPipeToken tk = true) (num : Int)
    (hs : stoi (tk.drop 1) = Except.ok num) (h1 : 1 ≤ num) (h2 : num ≤ 1000) :
    parseLoop (tk :: rest) st =
      parseLoop rest
        { setNumberedPipeForPrevCmd num (tk.head? == some '!') (flushCurrentCmd false st) with
          inNewGroup := true } := by
  have hok : ¬ (num < 1 ∨ 1000 < num) := by omega
  cases rest <;> simp only [parseLoop, h, if_true, hs, hok, if_false]

theorem parseLoop_pipe (rest : List Str) (st : ParseState) :
    parseLoop (['|'] :: rest) st = parseLoop rest (setPipeForPrevCmd (flushCurrentCmd false st)) := by
  cases rest <;> simp [parseLoop, isNumberedPipeToken]

theorem parseLoop_redirect (file : Str) (rest : List Str) (st : ParseState) :
    parseLoop (['>'] :: file :: rest) st =
      parseLoop rest
        { st with currentCmd := { st.currentCmd with redirect := true, redirectFile := file } } := by
  simp [parseLoop, isNumberedPipeToken]

theorem parseLoop_dangling (st : ParseState) :
    parseLoop [['>']] st = Except.ok (some st) := by
  simp [parseLoop, isNumberedPipeToken]

theorem parseLoop_word (tk : Str) (rest : List Str) (st : ParseState) (h : PlainWord tk) :
    parseLoop (tk :: rest) st =
      parseLoop rest
        { st with currentCmd := { st.currentCmd with args := st.currentCmd.args ++ [tk] } } := by
  cases rest <;> simp only [parseLoop, h.1, if_neg h.2.1, if_neg h.2.2, Bool.false_eq_true, if_false]

theorem parseLoop_inv (tokens : List Str) (st : ParseState) (h : ParseInv st)
    (st2 : ParseState) (hp : parseLoop tokens st = Except.ok (some st2)) : ParseInv st2 := by
  induction tokens, st using parseLoop.induct with
  | case1 st =>
    simp only [parseLoop, Except.ok.injEq, Option.some.injEq] at hp
    rw [← hp]; exact h
  | case2 tk rest st hnum e he =>
    rw [parseLoop_throw tk rest st hnum e he] at hp
    cases hp
  | case3 tk rest st hnum num hs hbad =>
    rw [parseLoop_invalid tk rest st hnum num hs hbad] at hp
    cases hp
  | case4 tk rest st hnum num hs hok st1 flag st2x ih =>
    have h1 : 1 ≤ num := by omega
    have h2 : num ≤ 1000 := by omega
    rw [parseLoop_numbered tk rest st hnum num hs h1 h2] at hp
    exact ih (parseInv_setNumbered (parseInv_flush h) num _ h1 h2) hp
  | case5 rest st _ ih =>
    rw [parseLoop_pipe] at hp
    exact ih (parseInv_setPipe (parseInv_flush h)) hp
  | case6 st file rest2 _ _ ih =>
    rw [parseLoop_redirect] at hp
    exact ih (parseInv_currentCmd h _ h.1) hp
  | case7 st _ _ =>
    rw [parseLoop_dangling] at hp
    cases hp
    exact h
  | case8 tk rest st h1 h2 h3 ih =>
    rw [parseLoop_word tk rest st ⟨by simpa using h1, h2, h3⟩] at hp
    exact ih (parseInv_currentCmd h _ h.1) hp

theorem parseTokens_inv (tokens : List Str) (ds : List CommandUnit)
    (h : parseTokens tokens = Except.ok ds) :
    (∀ d ∈ ds, Routed d) ∧ flagsFrom none ds := by
  unfold parseTokens at h
  cases hl : parseLoop tokens {} with
  | error e => rw [hl] at h; cases h
  | ok r =>
    rw [hl] at h
    cases r with
    | none =>
      cases h
      exact ⟨fun d hd => (by cases hd), trivial⟩
    | some st =>
      cases h
      have := parseInv_flush (parseLoop_inv tokens {} parseInv_start st hl)
      exact ⟨this.2.1, this.2.2.1⟩

theorem flagsFrom_consecutive (prev : Option CommandUnit) (ds : List CommandUnit)
    (h : flagsFrom prev ds) (i : Nat) (p d : CommandUnit)
    (hp : ds[i]? = some p) (hd : ds[i + 1]? = some d) :
    d.newGroup = true ↔ 0 < p.pipeNumber := by
  induction ds generalizing prev i with
  | nil => simp at hp
  | cons a rest ih =>
    obtain ⟨_, hrest⟩ := h
    cases i with
    | zero =>
      simp only [List.getElem?_cons_zero, Option.some.injEq] at hp
      subst hp
      cases rest with
      | nil => simp at hd
      | cons b rest2 =>
        simp only [List.getElem?_cons_succ, List.getElem?_cons_zero, Option.some.injEq] at hd
        subst hd
        exact hrest.1
    | succ j =>
      simp only [List.getElem?_cons_succ] at hp hd
      exact ih (some a) hrest j hp hd

theorem splitGroupsLoop_closed (rest : List CommandUnit) (groups : List (List CommandUnit))
    (cur : List CommandUnit)
    (hg : ∀ g ∈ groups, ClosedGroup g)
    (hc : ∀ d ∈ cur.dropLast, ¬ 0 < d.pipeNumber)
    (hf : flagsFrom cur.getLast? rest) :
    (∀ g ∈ (splitGroupsLoop rest groups cur).1, ClosedGroup g) ∧
      ∀ d ∈ (splitGroupsLoop rest groups cur).2.dropLast, ¬ 0 < d.pipeNumber := by
  induction rest generalizing groups cur with
  | nil => exact ⟨hg, hc⟩
  | cons c rest ih =>
    obtain ⟨hflag, hrest⟩ := hf
    unfold splitGroupsLoop
    split
    · rename_i hcond
      apply ih
      · intro g hgm
        rw [List.mem_append, List.mem_singleton] at hgm
        rcases hgm with hgm | hgm
        · exact hg g hgm
        · subst hgm
          refine ⟨hc, ?_⟩
          have hs := hflag.1 hcond.1
          rw [List.getLast?_eq_getLast g hcond.2] at hs ⊢
          exact ⟨_, rfl, hs⟩
      · intro d hd; simp at hd
      · simpa using hrest
    · rename_i hcond
      apply ih _ _ hg
      · intro d hd
        rw [List.dropLast_concat] at hd
        by_cases hcur : cur = []
        · subst hcur; cases hd
        · have hng : ¬ c.newGroup = true := fun hn => hcond ⟨hn, hcur⟩
          have hlast : ¬ startsGroup cur.getLast? := fun hs => hng (hflag.2 hs)
          rw [List.getLast?_eq_getLast cur hcur] at hlast
          rw [← List.dropLast_concat_getLast hcur, List.mem_append, List.mem_singleton] at hd
          rcases hd with hd | hd
          · exact hc d hd
          · subst hd; exact hlast
      · rw [List.getLast?_concat]
        exact hrest

theorem splitGroups_closed (ds : List CommandUnit) (h : flagsFrom none ds) :
    (∀ g ∈ splitGroups ds, ∀ d ∈ g.dropLast, ¬ 0 < d.pipeNumber) ∧
      ∀ g ∈ (splitGroups ds).dropLast, ClosedGroup g := by
  have hl := splitGroupsLoop_closed ds [] [] (fun g hg => by cases hg) (fun d hd => by cases hd) h
  unfold splitGroups
  by_cases hr : (splitGroupsLoop ds [] []).2 = []
  · simp only [hr, ne_eq, not_true_eq_false, if_false]
    exact ⟨fun g hg => (hl.1 g hg).1, fun g hg => hl.1 g (List.mem_of_mem_dropLast hg)⟩
  · simp only [ne_eq, hr, not_false_eq_true, if_true, List.dropLast_concat]
    refine ⟨?_, hl.1⟩
    intro g hg
    rw [List.mem_append, List.mem_singleton] at hg
    rcases hg with hg | hg
    · exact (hl.1 g hg).1
    · subst hg; exact hl.2

/-- Claim C10. In the sequence `parseLine` returns, the first descriptor has
`newGroup`, and every later one has `newGroup` exactly when the descriptor
right before it has `pipeNumber > 0`. Hence in `splitGroups` of it a
numbered-pipe producer is never anywhere but last in its group, and every
group but the last ends with such a producer, so a plain `|` never splits
a group. -/
theorem parseLine_newGroup (line : Str) (ds : List CommandUnit)
    (h : parseLine line = Except.ok ds) :
    (∀ d, ds.head? = some d → d.newGroup = true) ∧
    (∀ i p d, ds[i]? = some p → ds[i + 1]? = some d →
      (d.newGroup = true ↔ 0 < p.pipeNumber)) ∧
    (∀ g ∈ splitGroups ds, ∀ d ∈ g.dropLast, ¬ 0 < d.pipeNumber) ∧
    (∀ g ∈ (splitGroups ds).dropLast, ∃ d, g.getLast? = some d ∧ 0 < d.pipeNumber) := by
  have hinv := (parseTokens_inv (tokenize line) ds h).2
  have hcl := splitGroups_closed ds hinv
  refine ⟨?_, ?_, hcl.1, fun g hg => (hcl.2 g hg).2⟩
  · intro d hd
    cases ds with
    | nil => simp at hd
    | cons a rest =>
      simp only [List.head?_cons, Option.some.injEq] at hd
      subst hd
      exact hinv.1.2 trivial
  · intro i p d hp hd
    exact flagsFrom_consecutive none ds hinv i p d hp hd

/-- Claim C6, amended. Every descriptor `parseLine` returns has `pipeNumber`
in [0,1000]; one with `pipeNumber > 0` has `pipeToNext` set as well; and
`pipeToNextStderr` is set only together with `pipeNumber > 0`. -/
theorem parseLine_routing (line : Str) (ds : List CommandUnit)
    (h : parseLine line = Except.ok ds) :
    ∀ d ∈ ds, (0 < d.pipeNumber → d.pipeToNext = true) ∧ 0 ≤ d.pipeNumber ∧
      d.pipeNumber ≤ 1000 ∧ (d.pipeToNextStderr = true → 0 < d.pipeNumber) :=
  (parseTokens_inv (tokenize line) ds h).1

/-! ## `stoi` on a run of digits -/

theorem isSpace_of_isDigit (c : Char) (h : c.isDigit = true) : isSpace c = false := by
  cases hs : isSpace c with
  | false => rfl
  | true =>
    exfalso
    simp only [isSpace, Bool.or_eq_true, beq_iff_eq] at hs
    rcases hs with ((((hs | hs) | hs) | hs) | hs) | hs <;> subst hs <;> exact absurd h (by decide)

theorem stoi_digits_cases (ds : Str) (hne : ds ≠ []) (hd : ∀ c ∈ ds, c.isDigit = true) :
    stoi ds =
      if 2147483647 < (digitsValue ds : Int) then Except.error StoiError.out_of_range
      else Except.ok (digitsValue ds : Int) := by
  cases ds with
  | nil => exact absurd rfl hne
  | cons c cs =>
    have hc : c.isDigit = true := hd c (List.mem_cons_self _ _)
    have hsp : isSpace c = false := isSpace_of_isDigit c hc
    have hminus : c ≠ '-' := by rintro rfl; exact absurd hc (by decide)
    have hplus : c ≠ '+' := by rintro rfl; exact absurd hc (by decide)
    have htake : (c :: cs).takeWhile Char.isDigit = c :: cs := by
      rw [List.takeWhile_eq_self_iff]
      exact hd
    have hsign : stoiSign (c :: cs) = (false, c :: cs) := by
      unfold stoiSign
      split
      · rename_i r heq
        cases heq
        exact absurd rfl hminus
      · rename_i r heq
        cases heq
        exact absurd rfl hplus
      · rfl
    unfold stoi
    simp only [List.dropWhile_cons, hsp, Bool.false_eq_true, if_false, hsign, htake]
    have hpos : (0 : Int) ≤ (digitsValue (c :: cs) : Int) := Int.ofNat_nonneg _
    by_cases hbig : 2147483647 < (digitsValue (c :: cs) : Int)
    · rw [if_neg (by simp), if_pos (Or.inr hbig), if_pos hbig]
    · rw [if_neg (by simp), if_neg (by omega), if_neg hbig]

/-- What the loop of `parseLine` does at a token `|d` or `!d`, `d` a run of
digits: it throws when the value of `d` exceeds `INT_MAX`, leaves with
`invalidPipeFound` when the value is 0 or in 1001..`INT_MAX`, and goes on
otherwise. -/
theorem parseLoop_digits (c : Char) (hc : c = '|' ∨ c = '!') (ds : Str) (hne : ds ≠ [])
    (hd : ∀ x ∈ ds, x.isDigit = true) (rest : List Str) (st : ParseState) :
    parseLoop ((c :: ds) :: rest) st =
      if 2147483647 < digitsValue ds then Except.error StoiError.out_of_range
      else if digitsValue ds < 1 ∨ 1000 < digitsValue ds then Except.ok none
      else parseLoop rest
        { setNumberedPipeForPrevCmd (digitsValue ds) (c == '!') (flushCurrentCmd false st) with
          inNewGroup := true } := by
  have htok : isNumberedPipeToken (c :: ds) = true := by
    cases ds with
    | nil => exact absurd rfl hne
    | cons a l =>
      rcases hc with rfl | rfl <;> simp [isNumberedPipeToken]
  have hs := stoi_digits_cases ds hne hd
  by_cases hbig : 2147483647 < digitsValue ds
  · have hbig2 : 2147483647 < (digitsValue ds : Int) := by exact_mod_cast hbig
    rw [if_pos hbig2] at hs
    rw [if_pos hbig]
    exact parseLoop_throw (c :: ds) rest st htok _ hs
  · have hbig2 : ¬ 2147483647 < (digitsValue ds : Int) := by exact_mod_cast hbig
    rw [if_neg hbig2] at hs
    rw [if_neg hbig]
    by_cases hbad : digitsValue ds < 1 ∨ 1000 < digitsValue ds
    · rw [if_pos hbad]
      exact parseLoop_invalid (c :: ds) rest st htok _ hs (by omega)
    · rw [if_neg hbad]
      have := parseLoop_numbered (c :: ds) rest st htok _ hs (by omega) (by omega)
      simpa using this

/-! ## Parsing a well-formed line -/

theorem parseLoop_items (items : List Item) (hok : ∀ it ∈ items, ItemOK it)
    (rest : List Str) (r : List CommandUnit) (cur : CommandUnit) (b : Bool) :
    parseLoop (items.flatMap renderItem ++ rest)
        { result := r, currentCmd := cur, inNewGroup := b } =
      parseLoop rest
        { result := r, currentCmd := items.foldl applyItem cur, inNewGroup := b } := by
  induction items generalizing cur with
  | nil => rfl
  | cons it items ih =>
    have hrest : ∀ x ∈ items, ItemOK x := fun x hx => hok x (List.mem_cons_of_mem _ hx)
    cases it with
    | word w =>
      have hw : PlainWord w := hok (Item.word w) (List.mem_cons_self _ _)
      simp only [List.flatMap_cons, renderItem, List.singleton_append, List.cons_append,
        List.foldl_cons, List.nil_append]
      rw [parseLoop_word w _ _ hw]
      exact ih hrest _
    | redir file =>
      simp only [List.flatMap_cons, renderItem, List.cons_append, List.foldl_cons,
        List.nil_append]
      rw [parseLoop_redirect]
      exact ih hrest _

theorem foldl_applyItem_newGroup (items : List Item) (cmd : CommandUnit) :
    (items.foldl applyItem cmd).newGroup = cmd.newGroup := by
  induction items generalizing cmd with
  | nil => rfl
  | cons it items ih =>
    rw [List.foldl_cons, ih]
    cases it <;> rfl

theorem foldl_applyItem_args (items : List Item) (cmd : CommandUnit) :
    (items.foldl applyItem cmd).args = cmd.args ++ itemWords items := by
  induction items generalizing cmd with
  | nil => simp [itemWords]
  | cons it items ih =>
    rw [List.foldl_cons, ih]
    cases it <;> simp [applyItem, itemWords]

theorem foldl_applyItem_kept (items : List Item) (cmd : CommandUnit)
    (h : cmd.args ≠ [] ∨ cmd.redirect = true) :
    (items.foldl applyItem cmd).args ≠ [] ∨ (items.foldl applyItem cmd).redirect = true := by
  induction items generalizing cmd with
  | nil => exact h
  | cons it items ih =>
    rw [List.foldl_cons]
    apply ih
    cases it with
    | word w => left; simp [applyItem]
    | redir file => right; rfl

theorem foldl_applyItem_nonempty (items : List Item) (h : items ≠ []) :
    (items.foldl applyItem {}).args ≠ [] ∨ (items.foldl applyItem {}).redirect = true := by
  cases items with
  | nil => exact absurd rfl h
  | cons it items =>
    rw [List.foldl_cons]
    apply foldl_applyItem_kept
    cases it with
    | word w => left; simp [applyItem]
    | redir file => right; rfl

theorem flushCurrentCmd_kept (r : List CommandUnit) (cur : CommandUnit) (b : Bool)
    (h : cur.args ≠ [] ∨ cur.redirect = true) (hng : cur.newGroup = false) :
    flushCurrentCmd false { result := r, currentCmd := cur, inNewGroup := b } =
      { result := r ++ [{ cur with newGroup := b, pipeNumber := 0, pipeToNextStderr := false }],
        currentCmd := {}, inNewGroup := false } := by
  unfold flushCurrentCmd
  simp only [if_pos h]
  obtain ⟨a, p, ps, pn, rd, rf, ng⟩ := cur
  simp only at hng
  subst hng
  cases b <;> simp

theorem flushCurrentCmd_dropped (r : List CommandUnit) (b : Bool) :
    flushCurrentCmd false { result := r, currentCmd := {}, inNewGroup := b } =
      { result := r, currentCmd := {}, inNewGroup := b } := by
  simp [flushCurrentCmd]

theorem parseLoop_op (op : Op) (hop : OpOK op) (items : List Item) (hne : items ≠ [])
    (rest : List Str) (r : List CommandUnit) (b : Bool) :
    parseLoop (renderOp op :: rest)
        { result := r, currentCmd := items.foldl applyItem {}, inNewGroup := b } =
      parseLoop rest
        { result := r ++ [descOf b { items := items, op := op }], currentCmd := {},
          inNewGroup := opIsNumbered op } := by
  have hk := foldl_applyItem_nonempty items hne
  have hng : (items.foldl applyItem {}).newGroup = false := foldl_applyItem_newGroup items {}
  cases op with
  | pipe =>
    simp only [renderOp]
    rw [parseLoop_pipe, flushCurrentCmd_kept r _ b hk hng]
    simp only [setPipeForPrevCmd, modifyBack_append_singleton]
    rfl
  | numbered tk n =>
    obtain ⟨h1, h2, h3, h4⟩ := hop
    simp only [renderOp]
    rw [parseLoop_numbered tk rest _ h1 n h2 h3 h4, flushCurrentCmd_kept r _ b hk hng]
    simp only [setNumberedPipeForPrevCmd, modifyBack_append_singleton]
    rfl

theorem parseLoop_segments (segs : List Segment)
    (hok : ∀ sg ∈ segs, sg.items ≠ [] ∧ OpOK sg.op ∧ ∀ it ∈ sg.items, ItemOK it)
    (rest : List Str) (r : List CommandUnit) (b : Bool) :
    parseLoop (segs.flatMap renderSegment ++ rest)
        { result := r, currentCmd := {}, inNewGroup := b } =
      parseLoop rest
        { result := r ++ descsFrom b segs, currentCmd := {}, inNewGroup := flagAfter b segs } := by
  induction segs generalizing r b with
  | nil => simp [descsFrom, flagAfter]
  | cons sg segs ih =>
    obtain ⟨hne, hop, hitems⟩ := hok sg (List.mem_cons_self _ _)
    have hrest : ∀ x ∈ segs, x.items ≠ [] ∧ OpOK x.op ∧ ∀ it ∈ x.items, ItemOK it :=
      fun x hx => hok x (List.mem_cons_of_mem _ hx)
    simp only [List.flatMap_cons, renderSegment, List.append_assoc, List.singleton_append]
    rw [parseLoop_items sg.items hitems]
    refine (parseLoop_op sg.op hop sg.items hne _ r b).trans ?_
    refine (ih hrest (r ++ [descOf b sg]) (opIsNumbered sg.op)).trans ?_
    simp [descsFrom, flagAfter]

theorem parseLoop_lead (op : Op) (hop : OpOK op) (rest : List Str) :
    parseLoop (renderOp op :: rest) {} = parseLoop rest {} := by
  cases op with
  | pipe =>
    simp only [renderOp]
    rw [parseLoop_pipe]
    rfl
  | numbered tk n =>
    obtain ⟨h1, h2, h3, h4⟩ := hop
    simp only [renderOp]
    rw [parseLoop_numbered tk rest _ h1 n h2 h3 h4]
    rfl

/-- The descriptors `parseLine` returns for a well-formed line. -/
theorem parseTokens_render (l : Line) (hw : WellFormed l) :
    parseTokens (render l) = Except.ok
      (descsFrom true l.segs ++
        (if l.last = [] then []
          else [{ l.last.foldl applyItem {} with
                  newGroup := flagAfter true l.segs, pipeNumber := 0,
                  pipeToNextStderr := false }])) := by
  obtain ⟨hlead, hsegs, hlast⟩ := hw
  have hbody : ∀ tail : List Str,
      parseLoop (render l) {} =
        parseLoop (l.last.flatMap renderItem ++ (if l.dangling = true then [['>']] else []))
          { result := descsFrom true l.segs, currentCmd := {},
            inNewGroup := flagAfter true l.segs } := by
    intro _
    unfold render
    cases hl : l.lead with
    | none =>
      simp only [List.nil_append, List.append_assoc]
      have := parseLoop_segments l.segs hsegs
        (l.last.flatMap renderItem ++ (if l.dangling = true then [['>']] else [])) [] true
      simpa using this
    | some op =>
      simp only [List.singleton_append, List.append_assoc, List.cons_append, List.nil_append]
      rw [parseLoop_lead op (hlead op hl)]
      have := parseLoop_segments l.segs hsegs
        (l.last.flatMap renderItem ++ (if l.dangling = true then [['>']] else [])) [] true
      simpa using this
  have hloop : parseLoop (render l) {} = Except.ok (some
      { result := descsFrom true l.segs, currentCmd := l.last.foldl applyItem {},
        inNewGroup := flagAfter true l.segs }) := by
    rw [hbody [], parseLoop_items l.last hlast]
    cases l.dangling with
    | true => simp only [if_true]; rw [parseLoop_dangling]
    | false => simp [parseLoop]
  unfold parseTokens
  rw [hloop]
  simp only
  by_cases hl : l.last = []
  · rw [hl]
    simp only [List.foldl_nil, if_true, List.append_nil]
    rw [flushCurrentCmd_dropped]
  · rw [if_neg hl, flushCurrentCmd_kept _ _ _ (foldl_applyItem_nonempty l.last hl)
      (foldl_applyItem_newGroup l.last {})]

theorem descsFrom_view (b : Bool) (segs : List Segment) :
    (descsFrom b segs).map (fun d => (d.args, d.pipeNumber, d.pipeToNextStderr)) =
      segs.map (fun sg => (itemWords sg.items, opNumber sg.op, opStderr sg.op)) := by
  induction segs generalizing b with
  | nil => rfl
  | cons sg segs ih =>
    simp only [descsFrom, List.map_cons, ih]
    congr 1
    simp [descOf, foldl_applyItem_args]

/-- Claim C8. Take a line in which no two operators are adjacent and every
operator after the first token directly follows a command with at least one
word or redirect, the numbered-pipe tokens carrying numbers in [1,1000].
Then `parseLine` accepts it and returns one descriptor per command, in
order, where the descriptor of a command ended by a numbered-pipe token has
that token's number as `pipeNumber` and `pipeToNextStderr` set exactly when
the token begins with `!`, and every other descriptor has `pipeNumber` 0 and
`pipeToNextStderr` false. -/
theorem parseLine_numberedPipe (line : Str) (l : Line)
    (hl : tokenize line = render l) (hw : WellFormed l) :
    ∃ ds, parseLine line = Except.ok ds ∧
      ds.map (fun d => (d.args, d.pipeNumber, d.pipeToNextStderr)) = expectedPipes l := by
  refine ⟨_, (by unfold parseLine; rw [hl]; exact parseTokens_render l hw), ?_⟩
  · rw [List.map_append, descsFrom_view]
    unfold expectedPipes
    congr 1
    by_cases h : l.last = []
    · simp [h]
    · simp [h, foldl_applyItem_args]

theorem runSingleCommand_shell (w : World) (cmd : CommandUnit) (inFd : Fd) (s : Shell)
    (r : StageResult) (h : runSingleCommand w cmd inFd s = some r) :
    ∃ new : List MemoryPipeData,
      r.shell =
        { memoryPipeTable := s.memoryPipeTable ++ new,
          globalCreationID := s.globalCreationID + producers [cmd] } ∧
      ∀ mp ∈ new, 1 ≤ mp.countDown ∧ s.globalCreationID ≤ mp.creationID := by
  unfold runSingleCommand at h
  by_cases hp : 0 < cmd.pipeNumber
  · simp only [if_pos hp] at h
    by_cases hr : cmd.redirect = true
    · simp [hr] at h
    · simp only [hr, Bool.false_eq_true, if_false] at h
      cases hrun : childRun w cmd inFd with
      | none => simp [hrun] at h
      | some d =>
        simp only [hrun, Option.some.injEq] at h
        subst h
        refine ⟨[{ creationID := s.globalCreationID, countDown := cmd.pipeNumber,
                   pipeStderr := cmd.pipeToNextStderr, data := d }], ?_, ?_⟩
        · simp [producers, hp]
        · intro mp hmp
          rw [List.mem_singleton] at hmp
          subst hmp
          exact ⟨by show 1 ≤ cmd.pipeNumber; omega, Nat.le_refl _⟩
  · simp only [if_neg hp] at h
    refine ⟨[], ?_, fun mp hmp => by cases hmp⟩
    have hs : r.shell = s := by
      by_cases hr : cmd.redirect = true
      · simp only [hr, if_true] at h
        cases hrun : childRun w cmd inFd with
        | none => simp [hrun] at h
        | some d =>
          simp only [hrun, Option.some.injEq] at h
          rw [← h]
      · simp only [hr, Bool.false_eq_true, if_false, Option.some.injEq] at h
        rw [← h]
    rw [hs]
    simp [producers, hp]

theorem runSingleCommand_reachable (w : World) (cmd : CommandUnit) (inFd : Fd) (s : Shell)
    (r : StageResult) (h : runSingleCommand w cmd inFd s = some r) (hs : Reachable s) :
    Reachable r.shell := by
  unfold runSingleCommand at h
  by_cases hp : 0 < cmd.pipeNumber
  · simp only [if_pos hp] at h
    by_cases hr : cmd.redirect = true
    · simp [hr] at h
    · simp only [hr, Bool.false_eq_true, if_false] at h
      cases hrun : childRun w cmd inFd with
      | none => simp [hrun] at h
      | some d =>
        simp only [hrun, Option.some.injEq] at h
        subst h
        exact Reachable.insert s _ _ _ hs
  · simp only [if_neg hp] at h
    have hsh : r.shell = s := by
      by_cases hr : cmd.redirect = true
      · simp only [hr, if_true] at h
        cases hrun : childRun w cmd inFd with
        | none => simp [hrun] at h
        | some d =>
          simp only [hrun, Option.some.injEq] at h
          rw [← h]
      · simp only [hr, Bool.false_eq_true, if_false, Option.some.injEq] at h
        rw [← h]
    rw [hsh]
    exact hs

theorem runCommands_cons_some (w : World) (cmd : CommandUnit) (rest : List CommandUnit)
    (inFd : Fd) (s : Shell) (fd : Fd) (b : Bool) (s2 : Shell)
    (h : runCommands w (cmd :: rest) inFd s = some (fd, b, s2)) :
    ∃ r b2, runSingleCommand w cmd inFd s = some r ∧
      runCommands w rest r.inputForNextCommand r.shell = some (fd, b2, s2) ∧
      b = (r.childExits && b2) := by
  rw [runCommands] at h
  cases h1 : runSingleCommand w cmd inFd s with
  | none => simp [h1] at h
  | some r =>
    simp only [h1] at h
    cases h2 : runCommands w rest r.inputForNextCommand r.shell with
    | none => simp [h2] at h
    | some t =>
      obtain ⟨fd2, b2, s3⟩ := t
      simp only [h2, Option.some.injEq, Prod.mk.injEq] at h
      obtain ⟨rfl, rfl, rfl⟩ := h
      exact ⟨r, b2, rfl, h2, rfl⟩

theorem runCommands_table (w : World) (cmds : List CommandUnit) (inFd : Fd) (s : Shell)
    (fd : Fd) (b : Bool) (s2 : Shell) (h : runCommands w cmds inFd s = some (fd, b, s2)) :
    ∃ new : List MemoryPipeData,
      s2 =
        { memoryPipeTable := s.memoryPipeTable ++ new,
          globalCreationID := s.globalCreationID + producers cmds } ∧
      ∀ mp ∈ new, 1 ≤ mp.countDown ∧ s.globalCreationID ≤ mp.creationID := by
  induction cmds generalizing inFd s b with
  | nil =>
    simp only [runCommands, Option.some.injEq, Prod.mk.injEq] at h
    obtain ⟨_, _, rfl⟩ := h
    exact ⟨[], by simp [producers], fun mp hmp => by cases hmp⟩
  | cons c cmds ih =>
    obtain ⟨r, b2, h1, h2, _⟩ := runCommands_cons_some w c cmds inFd s fd b s2 h
    obtain ⟨new1, e1, p1⟩ := runSingleCommand_shell w c inFd s r h1
    obtain ⟨new2, e2, p2⟩ := ih _ _ _ h2
    refine ⟨new1 ++ new2, ?_, ?_⟩
    · rw [e2, e1]
      simp only [List.append_assoc, producers, List.filter_cons, List.filter_nil]
      congr 1
      split
      · simp; omega
      · simp
    · intro mp hmp
      rw [List.mem_append] at hmp
      rcases hmp with hmp | hmp
      · exact p1 mp hmp
      · have := p2 mp hmp
        rw [e1] at this
        exact ⟨this.1, by simp only at this; omega⟩

theorem runCommands_reachable (w : World) (cmds : List CommandUnit) (inFd : Fd) (s : Shell)
    (fd : Fd) (b : Bool) (s2 : Shell) (h : runCommands w cmds inFd s = some (fd, b, s2))
    (hs : Reachable s) : Reachable s2 := by
  induction cmds generalizing inFd s b with
  | nil =>
    simp only [runCommands, Option.some.injEq, Prod.mk.injEq] at h
    obtain ⟨_, _, rfl⟩ := h
    exact hs
  | cons c cmds ih =>
    obtain ⟨r, b2, h1, h2, _⟩ := runCommands_cons_some w c cmds inFd s fd b s2 h
    exact ih _ _ _ h2 (runSingleCommand_reachable w c inFd s r h1 hs)

theorem runSingleCommand_noLeak (w : World) (cmd : CommandUnit) (inFd : Fd) (s : Shell)
    (hl : ¬ LeaksPipe cmd) (hin : inFd ≠ Fd.stuck) :
    ∃ r, runSingleCommand w cmd inFd s = some r ∧ r.childExits = true ∧
      r.inputForNextCommand ≠ Fd.stuck ∧
      (0 < cmd.pipeNumber →
        r.shell =
          { memoryPipeTable := s.memoryPipeTable ++
              [{ creationID := s.globalCreationID, countDown := cmd.pipeNumber,
                 pipeStderr := cmd.pipeToNextStderr,
                 data := w.childOutput cmd (fdBytes inFd) }],
            globalCreationID := s.globalCreationID + 1 }) := by
  have hrun : childRun w cmd inFd = some (w.childOutput cmd (fdBytes inFd)) := by
    cases inFd with
    | invalid => rfl
    | ended b => rfl
    | stuck => exact absurd rfl hin
  unfold runSingleCommand
  rw [hrun]
  by_cases hp : 0 < cmd.pipeNumber
  · have hr : ¬ cmd.redirect = true := fun hr => hl ⟨hr, Or.inr hp⟩
    simp only [if_pos hp, hr, Bool.false_eq_true, if_false]
    exact ⟨_, rfl, rfl, by simp, fun _ => rfl⟩
  · simp only [if_neg hp]
    by_cases hr : cmd.redirect = true
    · have hpn : ¬ cmd.pipeToNext = true := fun hpn => hl ⟨hr, Or.inl hpn⟩
      simp only [hr, if_true, hpn, Bool.false_eq_true, if_false]
      exact ⟨_, rfl, rfl, by simp, fun h => absurd h hp⟩
    · simp only [hr, Bool.false_eq_true, if_false]
      refine ⟨_, rfl, rfl, ?_, fun h => absurd h hp⟩
      by_cases hpn : cmd.pipeToNext = true <;> simp [hpn]

theorem runCommands_noLeak (w : World) (cmds : List CommandUnit) (inFd : Fd) (s : Shell)
    (hl : ∀ c ∈ cmds, ¬ LeaksPipe c) (hin : inFd ≠ Fd.stuck) :
    ∃ fd s2, runCommands w cmds inFd s = some (fd, true, s2) ∧ fd ≠ Fd.stuck := by
  induction cmds generalizing inFd s with
  | nil => exact ⟨inFd, s, rfl, hin⟩
  | cons c cmds ih =>
    obtain ⟨r, h1, h2, h3, _⟩ :=
      runSingleCommand_noLeak w c inFd s (hl c (List.mem_cons_self _ _)) hin
    obtain ⟨fd, s2, h4, h5⟩ :=
      ih r.inputForNextCommand r.shell (fun x hx => hl x (List.mem_cons_of_mem _ hx)) h3
    refine ⟨fd, s2, ?_, h5⟩
    rw [runCommands]
    simp only [h1, h4, h2, Bool.and_self]

theorem runCommands_append (w : World) (a b : List CommandUnit) (inFd : Fd) (s : Shell)
    (fd1 fd2 : Fd) (e1 e2 : Bool) (s1 s2 : Shell)
    (h1 : runCommands w a inFd s = some (fd1, e1, s1))
    (h2 : runCommands w b fd1 s1 = some (fd2, e2, s2)) :
    runCommands w (a ++ b) inFd s = some (fd2, e1 && e2, s2) := by
  induction a generalizing inFd s e1 with
  | nil =>
    simp only [runCommands, Option.some.injEq, Prod.mk.injEq] at h1
    obtain ⟨rfl, rfl, rfl⟩ := h1
    simpa using h2
  | cons c a ih =>
    obtain ⟨r, b2, hr, hrest, rfl⟩ := runCommands_cons_some w c a inFd s fd1 e1 s1 h1
    have := ih _ _ _ hrest
    rw [List.cons_append, runCommands]
    simp only [hr, this, Bool.and_assoc]

theorem executeLineCommands_some (w : World) (cmds : List CommandUnit) (inFd : Fd) (s : Shell)
    (r : Str × Shell) (h : executeLineCommands w cmds inFd s = some r) :
    ∃ fd, runCommands w cmds inFd s = some (fd, true, r.2) := by
  unfold executeLineCommands at h
  cases hc : runCommands w cmds inFd s with
  | none => simp [hc] at h
  | some t =>
    obtain ⟨fd, b, s1⟩ := t
    simp only [hc] at h
    cases b with
    | false => simp at h
    | true =>
      simp only [Bool.true_eq_false, if_false] at h
      refine ⟨fd, ?_⟩
      split at h
      · simp only [Option.some.injEq] at h
        rw [← h]
      · split at h
        · cases h
        · simp only [Option.some.injEq] at h
          rw [← h]
        · simp only [Option.some.injEq] at h
          rw [← h]

theorem executeLineCommands_of_run (w : World) (cmds : List CommandUnit) (inFd : Fd)
    (s : Shell) (fd : Fd) (s1 : Shell)
    (hc : runCommands w cmds inFd s = some (fd, true, s1)) (hfd : fd ≠ Fd.stuck) :
    ∃ out, executeLineCommands w cmds inFd s = some (out, s1) := by
  unfold executeLineCommands
  simp only [hc, Bool.true_eq_false, if_false]
  split
  · exact ⟨_, rfl⟩
  · cases fd with
    | invalid => exact ⟨_, rfl⟩
    | ended b => exact ⟨_, rfl⟩
    | stuck => exact absurd rfl hfd

theorem runGroupBeforeAging_some (w : World) (g : List CommandUnit) (s s1 : Shell)
    (h : runGroupBeforeAging w g s = some s1) :
    ∃ fd, runCommands w g (fdOfCollected (getInputFD true s).1)
      { s with memoryPipeTable :=
          s.memoryPipeTable.filter (fun mp => decide (mp.countDown ≠ 0)) } = some (fd, true, s1) := by
  unfold runGroupBeforeAging at h
  cases he : executeLineCommands w g (fdOfCollected (getInputFD true s).1) (getInputFD true s).2 with
  | none => simp [he] at h
  | some r =>
    simp only [he, Option.some.injEq] at h
    obtain ⟨fd, hfd⟩ := executeLineCommands_some w g _ _ r he
    rw [h] at hfd
    refine ⟨fd, ?_⟩
    rw [← hfd]
    congr 1
    rw [getInputFD_consume]

theorem runGroup_some (w : World) (g : List CommandUnit) (s s2 : Shell)
    (h : runGroup w g s = some s2) :
    ∃ s1, runGroupBeforeAging w g s = some s1 ∧ s2 = decreaseCountdown s1 := by
  unfold runGroup at h
  cases hb : runGroupBeforeAging w g s with
  | none => simp [hb] at h
  | some s1 =>
    simp only [hb, Option.some.injEq] at h
    exact ⟨s1, rfl, h.symm⟩

theorem runGroupBeforeAging_table (w : World) (g : List CommandUnit) (s s1 : Shell)
    (h : runGroupBeforeAging w g s = some s1) :
    ∃ new : List MemoryPipeData,
      s1 =
        { memoryPipeTable :=
            s.memoryPipeTable.filter (fun mp => decide (mp.countDown ≠ 0)) ++ new,
          globalCreationID := s.globalCreationID + producers g } ∧
      ∀ mp ∈ new, 1 ≤ mp.countDown ∧ s.globalCreationID ≤ mp.creationID := by
  obtain ⟨fd, hfd⟩ := runGroupBeforeAging_some w g s s1 h
  exact runCommands_table w g _ _ fd true s1 hfd

theorem runGroup_table (w : World) (g : List CommandUnit) (s s2 : Shell)
    (h : runGroup w g s = some s2) :
    ∃ new : List MemoryPipeData,
      s2 =
        { memoryPipeTable :=
            (s.memoryPipeTable.filter (fun mp => decide (mp.countDown ≠ 0)) ++ new).map
              (fun mp => { mp with countDown := mp.countDown - 1 }),
          globalCreationID := s.globalCreationID + producers g } ∧
      ∀ mp ∈ new, 1 ≤ mp.countDown ∧ s.globalCreationID ≤ mp.creationID := by
  obtain ⟨s1, h1, rfl⟩ := runGroup_some w g s s2 h
  obtain ⟨new, e, p⟩ := runGroupBeforeAging_table w g s s1 h1
  refine ⟨new, ?_, p⟩
  rw [e]
  rfl

theorem runGroup_reachable (w : World) (g : List CommandUnit) (s s2 : Shell)
    (hs : Reachable s) (h : runGroup w g s = some s2) : Reachable s2 := by
  obtain ⟨s1, h1, rfl⟩ := runGroup_some w g s s2 h
  obtain ⟨fd, hfd⟩ := runGroupBeforeAging_some w g s s1 h1
  apply Reachable.age
  refine runCommands_reachable w g _ _ fd true s1 hfd ?_
  have := Reachable.collect s hs
  rw [getInputFD_consume] at this
  exact this

theorem fdOfCollected_ne_stuck (fd : Option Str) : fdOfCollected fd ≠ Fd.stuck := by
  cases fd <;> simp [fdOfCollected]

theorem runGroup_noLeak (w : World) (g : List CommandUnit) (s : Shell)
    (hl : ∀ c ∈ g, ¬ LeaksPipe c) : ∃ s2, runGroup w g s = some s2 := by
  obtain ⟨fd, s1, h1, h2⟩ := runCommands_noLeak w g (fdOfCollected (getInputFD true s).1)
    (getInputFD true s).2 hl (fdOfCollected_ne_stuck _)
  obtain ⟨out, h3⟩ := executeLineCommands_of_run w g _ _ fd s1 h1 h2
  refine ⟨decreaseCountdown s1, ?_⟩
  unfold runGroup runGroupBeforeAging
  simp only [h3]

theorem runGroups_noLeak (w : World) (gs : List (List CommandUnit)) (s : Shell)
    (hl : ∀ g ∈ gs, ∀ c ∈ g, ¬ LeaksPipe c) : ∃ s2, runGroups w gs s = some s2 := by
  induction gs generalizing s with
  | nil => exact ⟨s, rfl⟩
  | cons g gs ih =>
    obtain ⟨s1, h1⟩ := runGroup_noLeak w g s (hl g (List.mem_cons_self _ _))
    obtain ⟨s2, h2⟩ := ih s1 (fun x hx => hl x (List.mem_cons_of_mem _ hx))
    exact ⟨s2, by rw [runGroups]; simp only [h1, h2]⟩

theorem runGroups_cons_some (w : World) (g : List CommandUnit) (gs : List (List CommandUnit))
    (s s1 : Shell) (h : runGroup w g s = some s1) :
    runGroups w (g :: gs) s = runGroups w gs s1 := by
  rw [runGroups]
  simp only [h]

theorem runGroups_reachable (w : World) (gs : List (List CommandUnit)) (s s2 : Shell)
    (hs : Reachable s) (h : runGroups w gs s = some s2) : Reachable s2 := by
  induction gs generalizing s with
  | nil =>
    simp only [runGroups, Option.some.injEq] at h
    rw [← h]; exact hs
  | cons g gs ih =>
    rw [runGroups] at h
    cases h1 : runGroup w g s with
    | none => simp [h1] at h
    | some s1 =>
      simp only [h1] at h
      exact ih s1 (runGroup_reachable w g s s1 hs h1) h

theorem processLine_reachable (w : World) (line : Str) (s s2 : Shell) (h : Reachable s)
    (hp : processLine w line s = Except.ok s2) : Reachable s2 := by
  unfold processLine at hp
  by_cases ht : tokenize line = []
  · simp only [ht, if_true, Except.ok.injEq] at hp
    rw [← hp]; exact h
  · simp only [ht, if_false] at hp
    cases hb : handleBuiltInCommands (tokenize line) with
    | exits => rw [hb] at hp; cases hp
    | handled =>
      rw [hb] at hp
      simp only [Except.ok.injEq] at hp
      rw [← hp]
      exact Reachable.collect _ (Reachable.age _ h)
    | notBuiltIn =>
      rw [hb] at hp
      cases hl : parseLine line with
      | error e => rw [hl] at hp; cases hp
      | ok commands =>
        rw [hl] at hp
        cases hg : runGroups w (splitGroups commands) s with
        | none => simp [hg] at hp
        | some s1 =>
          simp only [hg, Except.ok.injEq] at hp
          rw [← hp]
          exact runGroups_reachable w _ s s1 h hg

/-- Every registry the line loop reaches is `Reachable`. -/
theorem runLines_reachable (w : World) (lines : List Str) (s s2 : Shell) (h : Reachable s)
    (hr : runLines w lines s = Except.ok s2) : Reachable s2 := by
  induction lines generalizing s with
  | nil =>
    simp only [runLines, Except.ok.injEq] at hr
    rw [← hr]; exact h
  | cons line rest ih =>
    rw [runLines] at hr
    cases hp : processLine w line s with
    | error e => rw [hp] at hr; cases hr
    | ok s1 =>
      rw [hp] at hr
      exact ih s1 (processLine_reachable w line s s1 h hp) hr

/-- Along executed groups the countdown of an entry never goes below 0: when
the aging step of a group runs, every entry stands at 1 or more. -/
theorem groupLines_countDown (w : World) (s : Shell) (h : GroupReachable w s) :
    (∀ mp ∈ s.memoryPipeTable, 0 ≤ mp.countDown) ∧
    (∀ g s1, runGroupBeforeAging w g s = some s1 →
      ∀ mp ∈ s1.memoryPipeTable, 1 ≤ mp.countDown) := by
  have key : ∀ (t : Shell), (∀ mp ∈ t.memoryPipeTable, 0 ≤ mp.countDown) →
      ∀ g s1, runGroupBeforeAging w g t = some s1 →
        ∀ mp ∈ s1.memoryPipeTable, 1 ≤ mp.countDown := by
    intro t ht g s1 hg mp hmp
    obtain ⟨new, e, p⟩ := runGroupBeforeAging_table w g t s1 hg
    rw [e] at hmp
    simp only [List.mem_append, List.mem_filter, decide_eq_true_eq] at hmp
    rcases hmp with ⟨hin, hne⟩ | hnew
    · have := ht mp hin
      omega
    · exact (p mp hnew).1
  have inv : ∀ mp ∈ s.memoryPipeTable, 0 ≤ mp.countDown := by
    induction h with
    | start => intro mp hmp; cases hmp
    | group t t1 g _ hrun ih =>
      intro mp hmp
      obtain ⟨s1, h1, rfl⟩ := runGroup_some w g t t1 hrun
      simp only [decreaseCountdown, List.mem_map] at hmp
      obtain ⟨a, ha, rfl⟩ := hmp
      have := key t ih g s1 h1 a ha
      show 0 ≤ a.countDown - 1
      omega
  exact ⟨inv, key s inv⟩

/-! ## Following one entry through the groups -/

theorem creationID_unique {l : List MemoryPipeData}
    (h : l.Pairwise (fun a b => a.creationID < b.creationID)) {x y : MemoryPipeData}
    (hx : x ∈ l) (hy : y ∈ l) (hid : x.creationID = y.creationID) : x = y := by
  induction l with
  | nil => cases hx
  | cons a l ih =>
    rw [List.pairwise_cons] at h
    rw [List.mem_cons] at hx hy
    rcases hx with hx | hx <;> rcases hy with hy | hy
    · rw [hx, hy]
    · subst hx
      have := h.1 y hy
      omega
    · subst hy
      have := h.1 x hx
      omega
    · exact ih h.2 hx hy

theorem mem_gathered_of_zero {s : Shell} {e : MemoryPipeData} (he : e ∈ s.memoryPipeTable)
    (hz : e.countDown = 0) : e ∈ gathered s := by
  rw [gathered_eq_filter, List.mem_filter]
  exact ⟨he, by simpa using hz⟩

theorem not_gathered_of_pending {s : Shell} (h : Reachable s) {e : MemoryPipeData}
    (he : e ∈ s.memoryPipeTable) (hz : e.countDown ≠ 0) :
    ∀ x ∈ gathered s, x.creationID ≠ e.creationID := by
  intro x hx hid
  rw [gathered_eq_filter, List.mem_filter] at hx
  have := creationID_unique (reachable_ids h).1 hx.1 he hid
  subst this
  exact hz (by simpa using hx.2)

theorem not_gathered_of_absent {s : Shell} {id : Nat} (h : Absent s id) :
    ∀ x ∈ gathered s, x.creationID ≠ id := by
  intro x hx
  rw [gathered_eq_filter, List.mem_filter] at hx
  exact h.2 x hx.1

theorem runGroup_pending (w : World) (g : List CommandUnit) {s s2 : Shell}
    (hrun : runGroup w g s = some s2) {e : MemoryPipeData}
    (he : e ∈ s.memoryPipeTable) (hz : e.countDown ≠ 0) :
    { e with countDown := e.countDown - 1 } ∈ s2.memoryPipeTable := by
  obtain ⟨new, h1, _⟩ := runGroup_table w g s s2 hrun
  rw [h1]
  simp only [List.mem_map]
  refine ⟨e, ?_, rfl⟩
  rw [List.mem_append, List.mem_filter]
  left
  exact ⟨he, by simpa using hz⟩

theorem runGroup_absent (w : World) (g : List CommandUnit) {s s2 : Shell}
    (hrun : runGroup w g s = some s2) {id : Nat}
    (hid : id < s.globalCreationID)
    (h : ∀ mp ∈ s.memoryPipeTable, mp.countDown ≠ 0 → mp.creationID ≠ id) :
    Absent s2 id := by
  obtain ⟨new, h1, h2⟩ := runGroup_table w g s s2 hrun
  rw [h1]
  refine ⟨Nat.lt_of_lt_of_le hid (Nat.le_add_right _ _), ?_⟩
  intro mp hmp
  simp only [List.mem_map, List.mem_append, List.mem_filter, decide_eq_true_eq] at hmp
  obtain ⟨a, ha, rfl⟩ := hmp
  rcases ha with ⟨hin, hne⟩ | hnew
  · exact h a hin hne
  · have := (h2 a hnew).2
    show a.creationID ≠ id
    omega

theorem runGroup_absent_of_zero (w : World) (g : List CommandUnit) {s s2 : Shell}
    (hrun : runGroup w g s = some s2)
    (h : Reachable s) {e : MemoryPipeData} (he : e ∈ s.memoryPipeTable)
    (hz : e.countDown = 0) : Absent s2 e.creationID := by
  apply runGroup_absent w g hrun ((reachable_ids h).2 e he)
  intro mp hmp hne hid
  have := creationID_unique (reachable_ids h).1 hmp he hid
  subst this
  exact hne hz

theorem runGroups_absent (w : World) (gs : List (List CommandUnit)) {s s2 : Shell} {id : Nat}
    (h : Absent s id) (hrun : runGroups w gs s = some s2) : Absent s2 id := by
  induction gs generalizing s with
  | nil =>
    simp only [runGroups, Option.some.injEq] at hrun
    rw [← hrun]; exact h
  | cons g gs ih =>
    rw [runGroups] at hrun
    cases h1 : runGroup w g s with
    | none => simp [h1] at hrun
    | some s1 =>
      simp only [h1] at hrun
      exact ih (runGroup_absent w g h1 h.1 (fun mp hmp _ => h.2 mp hmp)) hrun

theorem entry_delivery (w : World) (gs : List (List CommandUnit))
    (hl : ∀ g ∈ gs, ∀ c ∈ g, ¬ LeaksPipe c) (s : Shell)
    (h : Reachable s) (e : MemoryPipeData) (c : Nat) (he : e ∈ s.memoryPipeTable)
    (hc : e.countDown = (c : Int)) :
    (c < gs.length →
      ∃ t, runGroups w (gs.take c) s = some t ∧ { e with countDown := 0 } ∈ gathered t) ∧
    (∀ j, j < gs.length → j ≠ c →
      ∃ t, runGroups w (gs.take j) s = some t ∧
        ∀ x ∈ gathered t, x.creationID ≠ e.creationID) := by
  induction gs generalizing s e c with
  | nil => exact ⟨fun hlt => by simp at hlt, fun j hj => by simp at hj⟩
  | cons g gs ih =>
    have hlg : ∀ x ∈ g, ¬ LeaksPipe x := hl g (List.mem_cons_self _ _)
    have hlgs : ∀ x ∈ gs, ∀ y ∈ x, ¬ LeaksPipe y := fun x hx => hl x (List.mem_cons_of_mem _ hx)
    obtain ⟨s1, h1⟩ := runGroup_noLeak w g s hlg
    cases c with
    | zero =>
      have hz : e.countDown = 0 := by simpa using hc
      constructor
      · intro _
        have : ({ e with countDown := 0 } : MemoryPipeData) = e := by
          cases e; simp only at hz; subst hz; rfl
        rw [this]
        exact ⟨s, rfl, mem_gathered_of_zero he hz⟩
      · intro j hj hne
        cases j with
        | zero => exact absurd rfl hne
        | succ j =>
          rw [List.take_succ_cons, runGroups_cons_some w g _ s s1 h1]
          obtain ⟨t, ht⟩ := runGroups_noLeak w (gs.take j) s1
            (fun x hx => hlgs x (List.mem_of_mem_take hx))
          exact ⟨t, ht, not_gathered_of_absent
            (runGroups_absent w _ (runGroup_absent_of_zero w g h1 h he hz) ht)⟩
    | succ c =>
      have hz : e.countDown ≠ 0 := by rw [hc]; push_cast; omega
      have hstep := runGroup_pending w g h1 he hz
      have hc2 : ({ e with countDown := e.countDown - 1 } : MemoryPipeData).countDown = (c : Int) := by
        show e.countDown - 1 = (c : Int)
        rw [hc]; push_cast; omega
      obtain ⟨ih1, ih2⟩ := ih hlgs s1 (runGroup_reachable w g s s1 h h1) _ c hstep hc2
      constructor
      · intro hlt
        rw [List.take_succ_cons, runGroups_cons_some w g _ s s1 h1]
        exact ih1 (by simpa using hlt)
      · intro j hj hne
        cases j with
        | zero => exact ⟨s, rfl, not_gathered_of_pending h he hz⟩
        | succ j =>
          rw [List.take_succ_cons, runGroups_cons_some w g _ s s1 h1]
          exact ih2 j (by simpa using hj) (by omega)

theorem runGroup_inserts (w : World) (s0 : Shell) (pre post : List CommandUnit)
    (cmd : CommandUnit) (hp : 0 < cmd.pipeNumber)
    (hl : ∀ c ∈ pre ++ cmd :: post, ¬ LeaksPipe c) :
    ∃ s1, runGroup w (pre ++ cmd :: post) s0 = some s1 ∧
      { capturedEntry w s0 pre cmd with countDown := cmd.pipeNumber - 1 } ∈
        s1.memoryPipeTable := by
  have hlpre : ∀ c ∈ pre, ¬ LeaksPipe c := fun c hc => hl c (List.mem_append_left _ hc)
  have hlcmd : ¬ LeaksPipe cmd := hl cmd (by simp)
  have hlpost : ∀ c ∈ post, ¬ LeaksPipe c := fun c hc => hl c (by simp [hc])
  obtain ⟨fd1, t1, h1, hfd1⟩ := runCommands_noLeak w pre (fdOfCollected (getInputFD true s0).1)
    (getInputFD true s0).2 hlpre (fdOfCollected_ne_stuck _)
  obtain ⟨new1, e1, _⟩ := runCommands_table w pre _ _ fd1 true t1 h1
  obtain ⟨r, hr1, hr2, hr3, hr4⟩ := runSingleCommand_noLeak w cmd fd1 t1 hlcmd hfd1
  obtain ⟨fd3, t3, h3, hfd3⟩ := runCommands_noLeak w post r.inputForNextCommand r.shell hlpost hr3
  obtain ⟨new3, e3, _⟩ := runCommands_table w post _ _ fd3 true t3 h3
  have hmid : runCommands w (cmd :: post) fd1 t1 = some (fd3, true, t3) := by
    rw [runCommands]
    simp only [hr1, h3, hr2, Bool.and_self]
  have hall := runCommands_append w pre (cmd :: post) _ _ fd1 fd3 true true t1 t3 h1 hmid
  obtain ⟨out, hex⟩ := executeLineCommands_of_run w (pre ++ cmd :: post) _ _ fd3 t3 hall hfd3
  refine ⟨decreaseCountdown t3, ?_, ?_⟩
  · unfold runGroup runGroupBeforeAging
    simp only [hex]
  · simp only [decreaseCountdown, List.mem_map]
    refine ⟨{ capturedEntry w s0 pre cmd with countDown := cmd.pipeNumber }, ?_, rfl⟩
    rw [e3, hr4 hp, e1]
    simp only [List.mem_append, List.mem_singleton]
    left; right
    have hin : stageInput w s0 pre = fdBytes fd1 := by
      unfold stageInput
      simp only [h1]
    simp only [capturedEntry, hin, getInputFD_consume]

/-- Claim C1, amended. Let a stage with `pipeNumber = N >= 1` run in a group
from a reachable registry, let the groups `gs` follow, and let no stage of
these groups combine a redirect with a pipe. Then the shell gets through
the groups, and: if at least `N` groups follow, the entry the stage inserted
is gathered by the collect of the `N`-th following group, whose input is the
normalised concatenation of what that collect gathers; and no collect of any
other following group gathers an entry with that creation id. -/
theorem numberedPipe_delivery (w : World) (s0 : Shell) (h0 : Reachable s0)
    (pre post : List CommandUnit) (cmd : CommandUnit) (N : Nat) (hN : 1 ≤ N)
    (hcmd : cmd.pipeNumber = (N : Int)) (gs : List (List CommandUnit))
    (hl0 : ∀ c ∈ pre ++ cmd :: post, ¬ LeaksPipe c)
    (hl : ∀ g ∈ gs, ∀ c ∈ g, ¬ LeaksPipe c) :
    (N ≤ gs.length →
      ∃ t, stateBefore w (pre ++ cmd :: post) gs (N - 1) s0 = some t ∧
        capturedEntry w s0 pre cmd ∈ gathered t ∧
        (getInputFD true t).1 =
          some (normalizeNewline ((gathered t).map (fun mp => mp.data)).flatten)) ∧
    (∀ k, k < gs.length → k + 1 ≠ N →
      ∃ t, stateBefore w (pre ++ cmd :: post) gs k s0 = some t ∧
        ∀ x ∈ gathered t, x.creationID ≠ (capturedEntry w s0 pre cmd).creationID) := by
  have hp : 0 < cmd.pipeNumber := by rw [hcmd]; exact_mod_cast hN
  obtain ⟨s1, hrun, hins⟩ := runGroup_inserts w s0 pre post cmd hp hl0
  have hreach := runGroup_reachable w (pre ++ cmd :: post) s0 s1 h0 hrun
  have hcd : ({ capturedEntry w s0 pre cmd with countDown := cmd.pipeNumber - 1 } :
      MemoryPipeData).countDown = ((N - 1 : Nat) : Int) := by
    show cmd.pipeNumber - 1 = ((N - 1 : Nat) : Int)
    rw [hcmd]; omega
  obtain ⟨h1, h2⟩ := entry_delivery w gs hl s1 hreach _ (N - 1) hins hcd
  have hsb : ∀ k, stateBefore w (pre ++ cmd :: post) gs k s0 = runGroups w (gs.take k) s1 := by
    intro k
    unfold stateBefore
    simp only [hrun]
  constructor
  · intro hlen
    obtain ⟨t, ht, hmem⟩ := h1 (by omega)
    have hmem2 : capturedEntry w s0 pre cmd ∈ gathered t := hmem
    refine ⟨t, by rw [hsb]; exact ht, hmem2, ?_⟩
    rw [getInputFD_consume, gathered_eq_filter]
    rw [gathered_eq_filter, List.mem_filter] at hmem2
    rw [if_neg]
    intro hall
    exact hall _ hmem2.1 (by simpa using hmem2.2)
  · intro k hk hne
    obtain ⟨t, ht, hx⟩ := h2 k hk (by omega)
    exact ⟨t, by rw [hsb]; exact ht, hx⟩

/-- Claim C1 as stated fails for `N = 1`: after `echo hello |1` the payload
is gathered by the collect of the first following group, and the collect of
the second following group gathers nothing. -/
theorem numberedPipe_delivery_counterexample :
    parseLine "echo hello |1".toList =
      Except.ok [{ args := ["echo".toList, "hello".toList], pipeToNext := true,
                   pipeNumber := 1, newGroup := true }] ∧
    (stateBefore (constWorld "hello\n".toList)
        [{ args := ["echo".toList, "hello".toList], pipeToNext := true,
           pipeNumber := 1, newGroup := true }]
        [[{ args := ["cat".toList], newGroup := true }],
         [{ args := ["cat".toList], newGroup := true }]] 0 {}).map gathered =
      some [{ creationID := 0, countDown := 0, pipeStderr := false,
              data := "hello\n".toList }] ∧
    (stateBefore (constWorld "hello\n".toList)
        [{ args := ["echo".toList, "hello".toList], pipeToNext := true,
           pipeNumber := 1, newGroup := true }]
        [[{ args := ["cat".toList], newGroup := true }],
         [{ args := ["cat".toList], newGroup := true }]] 1 {}).map gathered = some [] :=
  ⟨rfl, rfl, rfl⟩

/-- The delivery theorem at `N = 2` with two following groups, the second of
which has a stage that redirects without piping. -/
theorem numberedPipe_delivery_witness :
    Reachable {} ∧ (1 : Nat) ≤ 2 ∧
    (∀ c ∈ [] ++ ({ args := ["echo".toList], pipeToNext := true, pipeNumber := 2,
                     newGroup := true } : CommandUnit) :: [], ¬ LeaksPipe c) ∧
    (∀ g ∈ [[({ args := ["cat".toList], newGroup := true } : CommandUnit)],
            [{ args := ["wc".toList], redirect := true, redirectFile := "f".toList,
               newGroup := true }]], ∀ c ∈ g, ¬ LeaksPipe c) ∧
    (2 ≤ [[({ args := ["cat".toList], newGroup := true } : CommandUnit)],
          [{ args := ["wc".toList], redirect := true, redirectFile := "f".toList,
             newGroup := true }]].length →
      ∃ t, stateBefore (constWorld "hello\n".toList)
          ([] ++ { args := ["echo".toList], pipeToNext := true, pipeNumber := 2,
                   newGroup := true } :: [])
          [[{ args := ["cat".toList], newGroup := true }],
           [{ args := ["wc".toList], redirect := true, redirectFile := "f".toList,
              newGroup := true }]] (2 - 1) {} = some t ∧
        capturedEntry (constWorld "hello\n".toList) {} []
          { args := ["echo".toList], pipeToNext := true, pipeNumber := 2,
            newGroup := true } ∈ gathered t ∧
        (getInputFD true t).1 =
          some (normalizeNewline ((gathered t).map (fun mp => mp.data)).flatten)) :=
  ⟨Reachable.start, by decide, by decide, by decide,
    (numberedPipe_delivery (constWorld "hello\n".toList) {} Reachable.start [] []
      { args := ["echo".toList], pipeToNext := true, pipeNumber := 2, newGroup := true }
      2 (by decide) rfl
      [[{ args := ["cat".toList], newGroup := true }],
       [{ args := ["wc".toList], redirect := true, redirectFile := "f".toList,
          newGroup := true }]]
      (by decide) (by decide)).1⟩

/-- A stage that combines a redirect with a pipe stops the shell for good:
on `echo hi > out1.txt |1` the read of `pipeFd[0]` in `runSingleCommand`
never ends and nothing is inserted, on `ls > f |` the read in
`mergeInputFDs` never ends, and on `ls > f | cat` the shell waits for a
`cat` that never sees the end of its input. -/
theorem redirect_with_pipe_blocks :
    parseLine "echo hi > out1.txt |1".toList =
      Except.ok [{ args := ["echo".toList, "hi".toList], pipeToNext := true, pipeNumber := 1,
                   redirect := true, redirectFile := "out1.txt".toList, newGroup := true }] ∧
    runLines (constWorld "hi\n".toList) ["echo hi > out1.txt |1".toList] {} =
      Except.error Halt.blocked ∧
    runLines (constWorld "hi\n".toList) ["ls > f |".toList, "echo after".toList] {} =
      Except.error Halt.blocked ∧
    runLines { childOutput := fun _ _ => "hi\n".toList, childOnStuckInput := fun _ => none }
        ["ls > f | cat".toList] {} =
      Except.error Halt.blocked :=
  ⟨rfl, rfl, rfl, rfl⟩

/-- Claim C3 at the lines `ls |1`, `setenv A B`: the group line leaves the
entry at 0, ready for the next collect; the built-in line ages it to -1
before it collects, so it is not flushed, and the groups that follow age it
further and never receive it. A group line in the place of the built-in
line collects it. -/
theorem builtIn_ages_ready_entry :
    runLines (constWorld "hi\n".toList) ["ls |1".toList] {} =
      Except.ok { memoryPipeTable := [{ creationID := 0, countDown := 0, pipeStderr := false,
                                        data := "hi\n".toList }],
                  globalCreationID := 1 } ∧
    runLines (constWorld "hi\n".toList) ["ls |1".toList, "setenv A B".toList] {} =
      Except.ok { memoryPipeTable := [{ creationID := 0, countDown := -1, pipeStderr := false,
                                        data := "hi\n".toList }],
                  globalCreationID := 1 } ∧
    runLines (constWorld "hi\n".toList)
        ["ls |1".toList, "setenv A B".toList, "cat".toList, "cat".toList] {} =
      Except.ok { memoryPipeTable := [{ creationID := 0, countDown := -3, pipeStderr := false,
                                        data := "hi\n".toList }],
                  globalCreationID := 1 } ∧
    runLines (constWorld "hi\n".toList) ["ls |1".toList, "cat".toList] {} =
      Except.ok { memoryPipeTable := [], globalCreationID := 1 } :=
  ⟨rfl, rfl, rfl, rfl⟩

/-- The collect theorem on a registry with two ready entries around a
pending one: the collect yields `ac` and a newline and leaves the pending
entry. -/
theorem getInputFD_collects_witness :
    Reachable
      { memoryPipeTable :=
          [{ creationID := 0, countDown := 0, pipeStderr := false, data := "a".toList },
           { creationID := 1, countDown := 2, pipeStderr := false, data := "b".toList },
           { creationID := 2, countDown := 0, pipeStderr := true, data := "c".toList }],
        globalCreationID := 3 } ∧
    (getInputFD true
      { memoryPipeTable :=
          [{ creationID := 0, countDown := 0, pipeStderr := false, data := "a".toList },
           { creationID := 1, countDown := 2, pipeStderr := false, data := "b".toList },
           { creationID := 2, countDown := 0, pipeStderr := true, data := "c".toList }],
        globalCreationID := 3 }).1.getD [] =
      collectSpec
        [{ creationID := 0, countDown := 0, pipeStderr := false, data := "a".toList },
         { creationID := 1, countDown := 2, pipeStderr := false, data := "b".toList },
         { creationID := 2, countDown := 0, pipeStderr := true, data := "c".toList }] ∧
    collectSpec
        [{ creationID := 0, countDown := 0, pipeStderr := false, data := "a".toList },
         { creationID := 1, countDown := 2, pipeStderr := false, data := "b".toList },
         { creationID := 2, countDown := 0, pipeStderr := true, data := "c".toList }] =
      "ac\n".toList :=
  ⟨Reachable.insert _ 0 true "c".toList
      (Reachable.insert _ 2 false "b".toList
        (Reachable.insert {} 0 false "a".toList Reachable.start)),
    (getInputFD_collects _
      (Reachable.insert _ 0 true "c".toList
        (Reachable.insert _ 2 false "b".toList
          (Reachable.insert {} 0 false "a".toList Reachable.start)))).1,
    by decide⟩

/-- Claim C4 at the line `ls |99999999999`: `stoi` throws `out_of_range`,
which nothing catches, so `parseLine` returns no descriptor sequence at
all. -/
theorem parseLine_hugePipeNumber :
    parseLine "ls |99999999999".toList = Except.error StoiError.out_of_range := rfl

/-- Claim C6 as stated fails: the descriptor `parseLine` returns for `ls |1`
has both `pipeToNext` set and `pipeNumber > 0`. -/
theorem routing_counterexample :
    parseLine "ls |1".toList =
      Except.ok [{ args := ["ls".toList], pipeToNext := true, pipeNumber := 1,
                   newGroup := true }] ∧
    ∃ d ∈ [({ args := ["ls".toList], pipeToNext := true, pipeNumber := 1,
              newGroup := true } : CommandUnit)],
      d.pipeToNext = true ∧ 0 < d.pipeNumber :=
  ⟨rfl, by decide⟩

/-- The routing theorem on the line `ls !3`. -/
theorem parseLine_routing_witness :
    parseLine "ls !3".toList =
      Except.ok [{ args := ["ls".toList], pipeToNext := true, pipeToNextStderr := true,
                   pipeNumber := 3, newGroup := true }] ∧
    ∀ d ∈ [({ args := ["ls".toList], pipeToNext := true, pipeToNextStderr := true,
              pipeNumber := 3, newGroup := true } : CommandUnit)],
      (0 < d.pipeNumber → d.pipeToNext = true) ∧ 0 ≤ d.pipeNumber ∧
        d.pipeNumber ≤ 1000 ∧ (d.pipeToNextStderr = true → 0 < d.pipeNumber) :=
  ⟨rfl, parseLine_routing "ls !3".toList _ rfl⟩

/-- The group-flag theorem on the line `a |2 b`. -/
theorem parseLine_newGroup_witness :
    parseLine "a |2 b".toList =
      Except.ok [{ args := ["a".toList], pipeToNext := true, pipeNumber := 2, newGroup := true },
                 { args := ["b".toList], newGroup := true }] ∧
    ∀ g ∈ (splitGroups
        [{ args := ["a".toList], pipeToNext := true, pipeNumber := 2, newGroup := true },
         { args := ["b".toList], newGroup := true }]).dropLast,
      ∃ d, g.getLast? = some d ∧ 0 < d.pipeNumber :=
  ⟨rfl, (parseLine_newGroup "a |2 b".toList _ rfl).2.2.2⟩

/-- The numbered-pipe theorem on the line `ls -l !3 cat > f |2 wc`. -/
theorem parseLine_numberedPipe_witness :
    tokenize "ls -l !3 cat > f |2 wc".toList =
      render { segs := [{ items := [Item.word "ls".toList, Item.word "-l".toList],
                          op := Op.numbered "!3".toList 3 },
                        { items := [Item.word "cat".toList, Item.redir "f".toList],
                          op := Op.numbered "|2".toList 2 }],
               last := [Item.word "wc".toList] } ∧
    WellFormed { segs := [{ items := [Item.word "ls".toList, Item.word "-l".toList],
                            op := Op.numbered "!3".toList 3 },
                          { items := [Item.word "cat".toList, Item.redir "f".toList],
                            op := Op.numbered "|2".toList 2 }],
                 last := [Item.word "wc".toList] } ∧
    ∃ ds, parseLine "ls -l !3 cat > f |2 wc".toList = Except.ok ds ∧
      ds.map (fun d => (d.args, d.pipeNumber, d.pipeToNextStderr)) =
        [(["ls".toList, "-l".toList], 3, true), (["cat".toList], 2, false),
         (["wc".toList], 0, false)] :=
  ⟨by decide, by decide,
    parseLine_numberedPipe "ls -l !3 cat > f |2 wc".toList
      { segs := [{ items := [Item.word "ls".toList, Item.word "-l".toList],
                   op := Op.numbered "!3".toList 3 },
                 { items := [Item.word "cat".toList, Item.redir "f".toList],
                   op := Op.numbered "|2".toList 2 }],
        last := [Item.word "wc".toList] }
      (by decide) (by decide)⟩

end NPShell
